import Mathlib

/-!
# Verification of the sqlite_fuse filesystem adapter

A shallow embedding of the FUSE filesystem adapter from `src/fuse_fs.rs` and
the store gateway from `src/database.rs`.  Strings are Lean `String`s,
byte strings are `List Nat` (each element < 256), Rust `HashMap`s are
association lists, and the SQLite store is a pair of row lists.  The
path ↔ id views (`v_folder_id_path_mapping`, `v_note_id_path_mapping`)
are defined in `sql/init.sql`, which is not part of the sources here;
they are modelled from the spec (store path = ancestor folder titles
joined by `/`, a note contributes `{title}.{syntax}`).
-/

namespace SqliteFuse

/-! ## Association-list maps (model of Rust `HashMap`) -/

def mapLookup {α β : Type} [DecidableEq α] : List (α × β) → α → Option β
  | [], _ => none
  | (a, b) :: t, k => if a = k then some b else mapLookup t k

def mapErase {α β : Type} [DecidableEq α] : List (α × β) → α → List (α × β)
  | [], _ => []
  | (a, b) :: t, k => if a = k then mapErase t k else (a, b) :: mapErase t k

/-- `HashMap::insert`: any previous binding of the key is replaced. -/
def mapInsert {α β : Type} [DecidableEq α] (m : List (α × β)) (k : α) (v : β) :
    List (α × β) :=
  (k, v) :: mapErase m k

/-! ## String helpers

Core `String` functions such as `String.splitOn` are defined by well-founded
recursion over byte positions and do not reduce inside `decide`; we therefore
re-implement the few operations the source uses on the character list
(`String.data`).  Rust's `starts_with`/`ends_with`/`contains`/slicing used by
the sources always cut at character boundaries, so the character-level model
agrees with Rust's byte-level one. -/

def strStartsWith (s pre : String) : Bool := pre.data.isPrefixOf s.data

def strEndsWith (s suf : String) : Bool := suf.data.reverse.isPrefixOf s.data.reverse

def listContainsSeq : List Char → List Char → Bool
  | [], p => p.isEmpty
  | a :: t, p => p.isPrefixOf (a :: t) || listContainsSeq t p

/-- Rust `str::contains` with a literal pattern. -/
def strContains (s pat : String) : Bool := listContainsSeq s.data pat.data

/-- Drop the first `n` characters (the sources only drop at char boundaries). -/
def strDrop (s : String) (n : Nat) : String := ⟨s.data.drop n⟩

/-- Number of characters, used to model slicing positions. -/
def strLen (s : String) : Nat := s.data.length

/-! ## UTF-8 byte-level machinery

`src/fuse_fs.rs` stores note content as a Rust `String` and converts incoming
byte buffers with `String::from_utf8_lossy`.  We model content as the list of
its UTF-8 bytes and reproduce the lossy conversion: invalid sequences are
replaced by U+FFFD (bytes `EF BF BD`) following Rust's "maximal subpart"
rule (`Utf8Error::error_len`). -/

def isCont (b : Nat) : Bool := decide (0x80 ≤ b) && decide (b ≤ 0xBF)

/-- Admissible second byte of a three-byte sequence headed by `b`. -/
def valid3Second (b c : Nat) : Bool :=
  (decide (b = 0xE0) && decide (0xA0 ≤ c) && decide (c ≤ 0xBF)) ||
  (decide (0xE1 ≤ b) && decide (b ≤ 0xEC) && isCont c) ||
  (decide (b = 0xED) && decide (0x80 ≤ c) && decide (c ≤ 0x9F)) ||
  (decide (0xEE ≤ b) && decide (b ≤ 0xEF) && isCont c)

/-- Admissible second byte of a four-byte sequence headed by `b`. -/
def valid4Second (b c : Nat) : Bool :=
  (decide (b = 0xF0) && decide (0x90 ≤ c) && decide (c ≤ 0xBF)) ||
  (decide (0xF1 ≤ b) && decide (b ≤ 0xF3) && isCont c) ||
  (decide (b = 0xF4) && decide (0x80 ≤ c) && decide (c ≤ 0x8F))

/-- Outcome of examining the bytes starting at `b`:
a valid sequence of `w` bytes, an invalid prefix of `e` bytes to skip,
or a truncated sequence at the end of the input. -/
inductive Utf8Step : Type where
  | valid (w : Nat)
  | invalid (e : Nat)
  | incomplete

deriving DecidableEq, Repr

def utf8Classify (b : Nat) (rest : List Nat) : Utf8Step :=
  if b ≤ 0x7F then .valid 1
  else if 0xC2 ≤ b ∧ b ≤ 0xDF then
    match rest with
    | [] => .incomplete
    | c :: _ => if isCont c then .valid 2 else .invalid 1
  else if 0xE0 ≤ b ∧ b ≤ 0xEF then
    match rest with
    | [] => .incomplete
    | c :: rest2 =>
      if valid3Second b c then
        match rest2 with
        | [] => .incomplete
        | d :: _ => if isCont d then .valid 3 else .invalid 2
      else .invalid 1
  else if 0xF0 ≤ b ∧ b ≤ 0xF4 then
    match rest with
    | [] => .incomplete
    | c :: rest2 =>
      if valid4Second b c then
        match rest2 with
        | [] => .incomplete
        | d :: rest3 =>
          if isCont d then
            match rest3 with
            | [] => .incomplete
            | e :: _ => if isCont e then .valid 4 else .invalid 3
          else .invalid 2
      else .invalid 1
  else .invalid 1

/-- The UTF-8 encoding of U+FFFD REPLACEMENT CHARACTER. -/
def fffd : List Nat := [0xEF, 0xBF, 0xBD]

/-- Fuel-based worker for `utf8Lossy` (structural recursion on the fuel, so
that concrete instances reduce inside `decide`; each step consumes at least
one byte, so any fuel ≥ the length gives the untruncated result). -/
def utf8LossyGo : Nat → List Nat → List Nat
  | _, [] => []
  | 0, _ :: _ => []
  | fuel + 1, b :: rest =>
    match utf8Classify b rest with
    | .valid w => (b :: rest).take w ++ utf8LossyGo fuel (rest.drop (w - 1))
    | .invalid e => fffd ++ utf8LossyGo fuel (rest.drop (e - 1))
    | .incomplete => fffd

/-- Nat-level model of `String::from_utf8_lossy(...).to_string()`. -/
def utf8Lossy (l : List Nat) : List Nat := utf8LossyGo l.length l

/-- Fuel-based worker for `validUtf8`. -/
def validUtf8Go : Nat → List Nat → Bool
  | _, [] => true
  | 0, _ :: _ => false
  | fuel + 1, b :: rest =>
    match utf8Classify b rest with
    | .valid w => validUtf8Go fuel (rest.drop (w - 1))
    | _ => false

/-- The byte list is valid UTF-8 (i.e. is `String::from_utf8`-accepted). -/
def validUtf8 (l : List Nat) : Bool := validUtf8Go l.length l

deriving instance DecidableEq for Except

/-! ## Store data model (`src/database.rs`)

Timestamps (`created_at`, `updated_at`) and the FTS/history triggers play no
role in any claim and are omitted from the row types.  Note content is kept
as the byte list of the stored `TEXT` value. -/

/-- Row of the `folders` table. -/
structure Folder : Type where
  id : String
  title : String
  parentId : Option String

deriving DecidableEq, Repr

/-- Row of the `notes` table (`syn` is the `syntax` column). -/
structure Note : Type where
  id : String
  title : String
  abstractText : Option String
  content : List Nat
  syn : String
  parentId : Option String
  userId : String

deriving DecidableEq, Repr

/-- The SQLite store. -/
structure Store : Type where
  folders : List Folder
  notes : List Note

deriving DecidableEq, Repr

/-- Modelled from the spec: the recursive path view of `sql/init.sql`
(not under `src/`), §3/§4.3 — a folder's store path is the `/`-joined list
of ancestor titles.  The fuel argument bounds the recursion; it exceeds any
acyclic parent chain, and a cyclic chain (which the SQL view would never
terminate on) yields `none`. -/
def folderPathAux (folders : List Folder) : Nat → String → Option String
  | 0, _ => none
  | fuel + 1, fid =>
    match folders.find? (fun f => decide (f.id = fid)) with
    | none => none
    | some f =>
      match f.parentId with
      | none => some f.title
      | some pid =>
        match folderPathAux folders fuel pid with
        | none => none
        | some pp => some (pp ++ "/" ++ f.title)

/-- Modelled from the spec: store path of the folder with id `fid`
(view `v_folder_id_path_mapping`). -/
def folderPathOfId (folders : List Folder) (fid : String) : Option String :=
  folderPathAux folders (folders.length + 1) fid

/-- Modelled from the spec: store path of a note row
(view `v_note_id_path_mapping`), `{parent path}/{title}.{syntax}`. -/
def notePathOf (folders : List Folder) (n : Note) : Option String :=
  match n.parentId with
  | none => some (n.title ++ "." ++ n.syn)
  | some pid =>
    match folderPathOfId folders pid with
    | none => none
    | some pp => some (pp ++ "/" ++ n.title ++ "." ++ n.syn)

/-- `Database::get_folder_id_by_path` (SELECT id FROM the path view). -/
def getFolderIdByPath (folders : List Folder) (path : String) : Option String :=
  (folders.find? (fun f => decide (folderPathOfId folders f.id = some path))).map (·.id)

/-- `Database::get_folder_by_id`. -/
def getFolderById (folders : List Folder) (fid : String) : Option Folder :=
  folders.find? (fun f => decide (f.id = fid))

/-- `Database::get_note_id_by_path` (no user filter, as in the source). -/
def getNoteIdByPath (s : Store) (path : String) : Option String :=
  (s.notes.find? (fun n => decide (notePathOf s.folders n = some path))).map (·.id)

/-- `Database::get_note_by_id`. -/
def getNoteById (s : Store) (nid : String) : Option Note :=
  s.notes.find? (fun n => decide (n.id = nid))

/-- `Database::create_note`: a plain INSERT.  Constraints of the schema
(`sql/init.sql`, not under `src/`) are not modelled; the insert succeeds. -/
def createNote (s : Store) (nid title : String) (abstractText : Option String)
    (content : List Nat) (syn : String) (parentId : Option String)
    (userId : String) : Store :=
  { s with notes := s.notes ++ [⟨nid, title, abstractText, content, syn, parentId, userId⟩] }

/-- `Database::create_folder`: a plain INSERT. -/
def createFolder (s : Store) (fid title : String) (parentId : Option String) : Store :=
  { s with folders := s.folders ++ [⟨fid, title, parentId⟩] }

/-- `Database::update_note`: UPDATE of title, abstract, content, syntax for
every row with the given id (returns whether any row was affected). -/
def updateNote (s : Store) (nid title : String) (abstractText : Option String)
    (content : List Nat) (syn : String) : Bool × Store :=
  (s.notes.any (fun n => decide (n.id = nid)),
   { s with notes := s.notes.map (fun n =>
       if n.id = nid then
         { n with title := title, abstractText := abstractText,
                  content := content, syn := syn }
       else n) })

/-- `Database::update_note_parent`. -/
def updateNoteParent (s : Store) (nid : String) (parentId : Option String) :
    Bool × Store :=
  (s.notes.any (fun n => decide (n.id = nid)),
   { s with notes := s.notes.map (fun n =>
       if n.id = nid then { n with parentId := parentId } else n) })

/-- `Database::update_folder`: only the title is updated. -/
def updateFolder (s : Store) (fid title : String) : Bool × Store :=
  (s.folders.any (fun f => decide (f.id = fid)),
   { s with folders := s.folders.map (fun f =>
       if f.id = fid then { f with title := title } else f) })

/-- Modelled from the spec: `update_folder_parent`, which `fuse_fs.rs` calls
but `src/database.rs` (an earlier draft) does not define — §4.3: reparent the
folder row. -/
def updateFolderParent (s : Store) (fid : String) (parentId : Option String) :
    Bool × Store :=
  (s.folders.any (fun f => decide (f.id = fid)),
   { s with folders := s.folders.map (fun f =>
       if f.id = fid then { f with parentId := parentId } else f) })

/-- `Database::delete_folder` (returns whether a row was deleted). -/
def deleteFolder (s : Store) (fid : String) : Bool × Store :=
  (s.folders.any (fun f => decide (f.id = fid)),
   { s with folders := s.folders.filter (fun f => decide (f.id ≠ fid)) })

/-- `Database::delete_note`. -/
def deleteNote (s : Store) (nid : String) : Bool × Store :=
  (s.notes.any (fun n => decide (n.id = nid)),
   { s with notes := s.notes.filter (fun n => decide (n.id ≠ nid)) })

/-- Lexicographic comparison of char lists, modelling `ORDER BY title`. -/
def charListLe : List Char → List Char → Bool
  | [], _ => true
  | _ :: _, [] => false
  | a :: as, b :: bs =>
    if a = b then charListLe as bs else decide (a.val < b.val)

def titleLe (a b : String) : Bool := charListLe a.data b.data

def insertSorted {α : Type} (le : α → α → Bool) (x : α) : List α → List α
  | [] => [x]
  | y :: t => if le x y then x :: y :: t else y :: insertSorted le x t

/-- Stable insertion sort with a boolean comparator (model of `ORDER BY`). -/
def sortByB {α : Type} (le : α → α → Bool) : List α → List α
  | [] => []
  | x :: t => insertSorted le x (sortByB le t)

/-- `Database::list_folders_by_parent` — folders with the given parent,
ORDER BY title.  The source's user argument is dropped: the `database.rs`
draft does not filter folders by user. -/
def listFoldersByParent (folders : List Folder) (parentId : Option String) :
    List Folder :=
  sortByB (fun a b => titleLe a.title b.title)
    (folders.filter (fun f => decide (f.parentId = parentId)))

/-- `Database::list_notes_by_parent` — notes with the given parent and user,
ORDER BY title. -/
def listNotesByParent (s : Store) (parentId : Option String) (userId : String) :
    List Note :=
  sortByB (fun a b => titleLe a.title b.title)
    (s.notes.filter (fun n => decide (n.parentId = parentId) && decide (n.userId = userId)))

/-- `Database::get_child_count` with a user filter (as the dispatcher calls
it): folders with the given parent (not user-filtered) and notes with the
given parent owned by the user. -/
def getChildCount (s : Store) (parentId : Option String) (userId : String) :
    Nat × Nat :=
  ((s.folders.filter (fun f => decide (f.parentId = parentId))).length,
   (s.notes.filter (fun n => decide (n.parentId = parentId) && decide (n.userId = userId))).length)

/-! ## Name classifier (`fuse_fs.rs` helpers) -/

/-- `ExampleFuseFs::is_editor_temp_file`, branch for branch. -/
def isEditorTempFile (filename : String) : Bool :=
  if strStartsWith filename "." then true
  else if strStartsWith filename "." && strEndsWith filename ".swp" then true
  else if strStartsWith filename "." && strEndsWith filename ".swo" then true
  else if strStartsWith filename "." && strEndsWith filename ".tmp" then true
  else if strEndsWith filename "~" then true
  else if strStartsWith filename "#" && strEndsWith filename "#" then true
  else if strStartsWith filename ".#" then true
  else if strStartsWith filename ".vscode" then true
  else if strContains filename ".tmp." || strEndsWith filename ".tmp" then true
  else if strContains filename ".temp." || strEndsWith filename ".temp" then true
  else false

/-- `ExampleFuseFs::normalize_path_for_db`: strip one leading `/`,
keeping `/` itself. -/
def normalizePathForDb (p : String) : String :=
  if p = "/" then "/"
  else if strStartsWith p "/" then strDrop p 1
  else p

/-- Index of the last occurrence of `c`, as in Rust `str::rfind`. -/
def lastIdxOf (c : Char) (cs : List Char) : Option Nat :=
  match cs.reverse.findIdx? (fun a => decide (a = c)) with
  | some j => some (cs.length - 1 - j)
  | none => none

/-- Index of the `.` that Rust `Path::file_stem`/`extension` split at: the
last `.`, except a `.` at position 0 (leading-dot hidden files do not
split). -/
def splitDotIdx (cs : List Char) : Option Nat :=
  match lastIdxOf '.' cs with
  | some i => if 1 ≤ i then some i else none
  | none => none

/-- Rust `Path::new(name).file_stem()` for a bare file name. -/
def fileStem (name : String) : Option String :=
  if name = "" ∨ name = "." ∨ name = ".." then none
  else
    match splitDotIdx name.data with
    | some i => some ⟨name.data.take i⟩
    | none => some name

/-- Rust `Path::new(name).extension()` for a bare file name. -/
def fileExtension (name : String) : Option String :=
  if name = "" ∨ name = "." ∨ name = ".." then none
  else
    match splitDotIdx name.data with
    | some i => some ⟨name.data.drop (i + 1)⟩
    | none => none

/-! ## Inode table (`ExampleFuseFs` maps) -/

structure InodeTable : Type where
  inodeMap : List (String × Nat)
  reverseInodeMap : List (Nat × String)
  nextInode : Nat

deriving DecidableEq, Repr

/-- Table state after `ExampleFuseFs::new`: root `/` pre-installed at 1. -/
def initTable : InodeTable :=
  { inodeMap := [("/", 1)], reverseInodeMap := [(1, "/")], nextInode := 2 }

/-- `get_path_from_inode`. -/
def getPathFromInode (t : InodeTable) (ino : Nat) : Option String :=
  mapLookup t.reverseInodeMap ino

/-- `get_or_create_inode`. -/
def getOrCreateInode (t : InodeTable) (p : String) : Nat × InodeTable :=
  match mapLookup t.inodeMap p with
  | some i => (i, t)
  | none =>
    (t.nextInode,
     { inodeMap := mapInsert t.inodeMap p t.nextInode,
       reverseInodeMap := mapInsert t.reverseInodeMap t.nextInode p,
       nextInode := t.nextInode + 1 })

/-- The subtree test of `update_inode_mappings`:
`path == old_path || path.starts_with(&format!("{old_path}/"))`. -/
def inSubtreeOf (oldPath p : String) : Bool :=
  decide (p = oldPath) || strStartsWith p (oldPath ++ "/")

/-- The rewrite `path.replacen(old_path, new_path, 1)` of
`update_inode_mappings`.  It is only applied to paths in the subtree of
`oldPath`; such a path has `oldPath` as a prefix, so the first occurrence
that `replacen` replaces is that prefix. -/
def rewriteSubtreePath (oldPath newPath p : String) : String :=
  if p = oldPath then newPath else newPath ++ strDrop p (strLen oldPath)

/-- Loop body of `update_inode_mappings`: for a triple
`(old path, new path, inode)`, `inode_map.remove(&old_path)`,
`inode_map.insert(new_path, inode)`, `reverse_inode_map.insert(inode,
new_path)`. -/
def renameStep (acc : InodeTable) (u : String × String × Nat) : InodeTable :=
  { inodeMap := mapInsert (mapErase acc.inodeMap u.1) u.2.1 u.2.2,
    reverseInodeMap := mapInsert acc.reverseInodeMap u.2.2 u.2.1,
    nextInode := acc.nextInode }

/-- The `paths_to_update` list of `update_inode_mappings`. -/
def pathsToUpdate (t : InodeTable) (oldPath newPath : String) :
    List (String × String × Nat) :=
  (t.inodeMap.filter (fun e => inSubtreeOf oldPath e.1)).map
    (fun e => (e.1, rewriteSubtreePath oldPath newPath e.1, e.2))

/-- `ExampleFuseFs::update_inode_mappings`: collect the subtree entries,
then for each remove the old key and insert the rewritten one (the Rust
`HashMap` iteration order is unspecified; the model iterates the
association list). -/
def updateInodeMappings (t : InodeTable) (oldPath newPath : String) : InodeTable :=
  (pathsToUpdate t oldPath newPath).foldl renameStep t

/-- Inode removal performed by `unlink`/`rmdir`:
`inode_map.remove` and, if a binding existed, `reverse_inode_map.remove`. -/
def removeInodeFor (t : InodeTable) (p : String) : InodeTable :=
  match mapLookup t.inodeMap p with
  | some i =>
    { inodeMap := mapErase t.inodeMap p,
      reverseInodeMap := mapErase t.reverseInodeMap i,
      nextInode := t.nextInode }
  | none => t

/-! ## Replies -/

inductive FileKind : Type where
  | directory
  | regularFile

deriving DecidableEq, Repr

/-- The `fuser::FileAttr` fields that the model tracks.  Timestamps are
wall-clock values (`SystemTime::now()` / entity timestamps) and are
omitted; `rdev`, `flags` and `blksize` are constants in every reply. -/
structure FileAttr : Type where
  ino : Nat
  size : Nat
  blocks : Nat
  kind : FileKind
  perm : Nat
  nlink : Nat
  uid : Nat
  gid : Nat

deriving DecidableEq, Repr

/-- Directory attribute record as built by the handlers. -/
def dirAttr (ino : Nat) : FileAttr :=
  { ino := ino, size := 0, blocks := 0, kind := .directory,
    perm := 0o755, nlink := 2, uid := 501, gid := 20 }

/-- Regular-file attribute record as built by the handlers
(`blocks = size.div_ceil(512)`). -/
def fileAttr (ino size : Nat) : FileAttr :=
  { ino := ino, size := size, blocks := (size + 511) / 512, kind := .regularFile,
    perm := 0o644, nlink := 1, uid := 501, gid := 20 }

/-- POSIX error codes the handlers reply with. -/
inductive Errno : Type where
  | enoent
  | eisdir
  | enotdir
  | eexist
  | enotempty
  | einval
  | eio

deriving DecidableEq, Repr

/-- Whole dispatcher state: the store and the inode table, plus the
configured principal. -/
structure FsState : Type where
  store : Store
  table : InodeTable
  userId : String

deriving DecidableEq, Repr

/-! ## Operation handlers (`impl Filesystem for ExampleFuseFs`)

Each handler returns the state after the call together with the reply.
The model is pure, so `rusqlite` `Err(_)` branches (store I/O failures)
never occur; every `eprintln!` is dropped.  Fresh note ids
(`uuid::Uuid::new_v4`) are passed in as arguments. -/

/-- `Filesystem::lookup`. -/
def lookup (st : FsState) (parent : Nat) (name : String) :
    FsState × Except Errno FileAttr :=
  match mapLookup st.table.reverseInodeMap parent with
  | none => (st, .error .enoent)
  | some parentPath =>
    let fullPath := if parentPath = "/" then "/" ++ name else parentPath ++ "/" ++ name
    let dbPath := normalizePathForDb fullPath
    match getFolderIdByPath st.store.folders dbPath with
    | some folderId =>
      match getFolderById st.store.folders folderId with
      | some _folder =>
        let r := getOrCreateInode st.table fullPath
        ({ st with table := r.2 }, .ok (dirAttr r.1))
      | none => (st, .error .enoent)
    | none =>
      match getNoteIdByPath st.store dbPath with
      | some noteId =>
        match getNoteById st.store noteId with
        | some note =>
          let r := getOrCreateInode st.table fullPath
          ({ st with table := r.2 }, .ok (fileAttr r.1 note.content.length))
        | none => (st, .error .enoent)
      | none => (st, .error .enoent)

/-- `Filesystem::getattr`. -/
def getattr (st : FsState) (ino : Nat) : FsState × Except Errno FileAttr :=
  if ino = 1 then (st, .ok (dirAttr 1))
  else
    match mapLookup st.table.reverseInodeMap ino with
    | none => (st, .error .enoent)
    | some path =>
      let dbPath := normalizePathForDb path
      match getFolderIdByPath st.store.folders dbPath with
      | some folderId =>
        match getFolderById st.store.folders folderId with
        | some _folder => (st, .ok (dirAttr ino))
        | none => (st, .error .enoent)
      | none =>
        match getNoteIdByPath st.store dbPath with
        | some noteId =>
          match getNoteById st.store noteId with
          | some note => (st, .ok (fileAttr ino note.content.length))
          | none => (st, .error .enoent)
        | none => (st, .error .enoent)

/-- `Filesystem::read`: serves the whole content tail from `offset`
(the kernel truncates to its `size`), empty data past the end. -/
def read (st : FsState) (ino : Nat) (offset : Nat) :
    FsState × Except Errno (List Nat) :=
  match mapLookup st.table.reverseInodeMap ino with
  | none => (st, .error .enoent)
  | some path =>
    let dbPath := normalizePathForDb path
    match getFolderIdByPath st.store.folders dbPath with
    | some _folderId => (st, .error .eisdir)
    | none =>
      match getNoteIdByPath st.store dbPath with
      | some noteId =>
        match getNoteById st.store noteId with
        | some note =>
          (st, .ok (if offset < note.content.length then note.content.drop offset else []))
        | none => (st, .error .enoent)
      | none => (st, .error .enoent)

/-- `Filesystem::write`: content recomputed from the offset and data, then
converted with `String::from_utf8_lossy` and persisted via `update_note`. -/
def write (st : FsState) (ino : Nat) (offset : Nat) (data : List Nat) :
    FsState × Except Errno Nat :=
  match mapLookup st.table.reverseInodeMap ino with
  | none => (st, .error .enoent)
  | some path =>
    let dbPath := normalizePathForDb path
    match getFolderIdByPath st.store.folders dbPath with
    | some _folderId => (st, .error .eisdir)
    | none =>
      match getNoteIdByPath st.store dbPath with
      | none => (st, .error .enoent)
      | some noteId =>
        match getNoteById st.store noteId with
        | none => (st, .error .enoent)
        | some note0 =>
          let newContent :=
            if offset = 0 then utf8Lossy data
            else
              let contentBytes := note0.content
              let padded :=
                if contentBytes.length < offset then
                  contentBytes ++ List.replicate (offset - contentBytes.length) 0
                else contentBytes
              let combined :=
                if offset + data.length ≤ padded.length then
                  padded.take offset ++ data ++ padded.drop (offset + data.length)
                else
                  padded.take offset ++ data
              utf8Lossy combined
          match getNoteById st.store noteId with
          | none => (st, .error .enoent)
          | some note =>
            let r := updateNote st.store noteId note.title note.abstractText newContent note.syn
            ({ st with store := r.2 }, .ok data.length)

/-- `Filesystem::create`.  `freshNoteId` stands for the generated UUID. -/
def create (st : FsState) (parent : Nat) (name : String) (freshNoteId : String) :
    FsState × Except Errno FileAttr :=
  match mapLookup st.table.reverseInodeMap parent with
  | none => (st, .error .enoent)
  | some parentPath =>
    let fullPath := if parentPath = "/" then "/" ++ name else parentPath ++ "/" ++ name
    let dbPath := normalizePathForDb fullPath
    match getNoteIdByPath st.store dbPath with
    | some _existingId => (st, .error .eexist)
    | none =>
      if isEditorTempFile name then
        let r := getOrCreateInode st.table fullPath
        ({ st with table := r.2 }, .ok (fileAttr r.1 0))
      else
        match fileStem name with
        | none => (st, .error .einval)
        | some title =>
          match fileExtension name with
          | none => (st, .error .einval)
          | some syn =>
            let parentResolved : Option (Option String) :=
              if parentPath = "/" then some none
              else
                match getFolderIdByPath st.store.folders (normalizePathForDb parentPath) with
                | some fid => some (some fid)
                | none => none
            match parentResolved with
            | none => (st, .error .enoent)
            | some parentFolderId =>
              let store' := createNote st.store freshNoteId title (some "") [] syn
                parentFolderId st.userId
              let r := getOrCreateInode st.table fullPath
              ({ st with store := store', table := r.2 }, .ok (fileAttr r.1 0))

/-- `Filesystem::mknod`.  Note: no existence check and no editor-temp-file
shim; the parent folder lookup accepts `None` (`Ok(maybe_id) => maybe_id`). -/
def mknod (st : FsState) (parent : Nat) (name : String) (mode : Nat)
    (freshNoteId : String) : FsState × Except Errno FileAttr :=
  match mapLookup st.table.reverseInodeMap parent with
  | none => (st, .error .enoent)
  | some parentPath =>
    let parentId :=
      if parentPath = "/" then none
      else getFolderIdByPath st.store.folders (normalizePathForDb parentPath)
    let fullPath := if parentPath = "/" then "/" ++ name else parentPath ++ "/" ++ name
    match fileStem name with
    | none => (st, .error .enoent)
    | some title =>
      match fileExtension name with
      | none => (st, .error .einval)
      | some syn =>
        let store' := createNote st.store freshNoteId title (some "") [] syn
          parentId st.userId
        let r := getOrCreateInode st.table fullPath
        ({ st with store := store', table := r.2 },
         .ok { ino := r.1, size := 0, blocks := 0, kind := .regularFile,
               perm := mode &&& 0o777, nlink := 1, uid := 501, gid := 20 })

/-- `Filesystem::setattr`. -/
def setattr (st : FsState) (ino : Nat) (mode uid gid : Option Nat)
    (size : Option Nat) : FsState × Except Errno FileAttr :=
  match mapLookup st.table.reverseInodeMap ino with
  | none => (st, .error .enoent)
  | some path =>
    let dbPath := normalizePathForDb path
    match getFolderIdByPath st.store.folders dbPath with
    | some folderId =>
      match getFolderById st.store.folders folderId with
      | some _folder =>
        (st, .ok { ino := ino, size := 0, blocks := 0, kind := .directory,
                   perm := mode.getD 0o755, nlink := 2,
                   uid := uid.getD 501, gid := gid.getD 20 })
      | none => (st, .error .enoent)
    | none =>
      match getNoteIdByPath st.store dbPath with
      | none => (st, .error .enoent)
      | some noteId =>
        match getNoteById st.store noteId with
        | none => (st, .error .enoent)
        | some note0 =>
          match size with
          | some newSize =>
            let contentBytes :=
              if newSize < note0.content.length then note0.content.take newSize
              else if note0.content.length < newSize then
                note0.content ++ List.replicate (newSize - note0.content.length) 0
              else note0.content
            let newContent := utf8Lossy contentBytes
            let r := updateNote st.store noteId note0.title note0.abstractText
              newContent note0.syn
            let note :=
              match getNoteById r.2 noteId with
              | some updatedNote => updatedNote
              | none => { note0 with content := newContent }
            ({ st with store := r.2 },
             .ok { ino := ino, size := note.content.length,
                   blocks := (note.content.length + 511) / 512,
                   kind := .regularFile, perm := mode.getD 0o644, nlink := 1,
                   uid := uid.getD 501, gid := gid.getD 20 })
          | none =>
            (st, .ok { ino := ino, size := note0.content.length,
                       blocks := (note0.content.length + 511) / 512,
                       kind := .regularFile, perm := mode.getD 0o644, nlink := 1,
                       uid := uid.getD 501, gid := gid.getD 20 })

/-- `Filesystem::rmdir`.  A non-empty folder is refused with `EIO`. -/
def rmdir (st : FsState) (parent : Nat) (name : String) :
    FsState × Except Errno Unit :=
  match mapLookup st.table.reverseInodeMap parent with
  | none => (st, .error .enoent)
  | some parentPath =>
    let path := if parentPath = "/" then "/" ++ name else parentPath ++ "/" ++ name
    let dbPath := normalizePathForDb path
    match getFolderIdByPath st.store.folders dbPath with
    | none => (st, .error .enoent)
    | some folderId =>
      let counts := getChildCount st.store (some folderId) st.userId
      if counts.2 + counts.1 > 0 then (st, .error .eio)
      else
        let r := deleteFolder st.store folderId
        if r.1 then
          ({ st with store := r.2, table := removeInodeFor st.table path }, .ok ())
        else
          ({ st with store := r.2 }, .error .enoent)

/-- `Filesystem::rename`. -/
def rename (st : FsState) (parent : Nat) (name : String) (newParent : Nat)
    (newName : String) : FsState × Except Errno Unit :=
  match mapLookup st.table.reverseInodeMap parent with
  | none => (st, .error .enoent)
  | some parentPath =>
    match mapLookup st.table.reverseInodeMap newParent with
    | none => (st, .error .enoent)
    | some newParentPath =>
      let oldPath := if parentPath = "/" then "/" ++ name else parentPath ++ "/" ++ name
      let newPath :=
        if newParentPath = "/" then "/" ++ newName else newParentPath ++ "/" ++ newName
      let dbOldPath := normalizePathForDb oldPath
      let newParentId :=
        if newParentPath = "/" then none
        else getFolderIdByPath st.store.folders (normalizePathForDb newParentPath)
      match getFolderIdByPath st.store.folders dbOldPath with
      | some folderId =>
        let r1 := updateFolder st.store folderId newName
        let r2 := updateFolderParent r1.2 folderId newParentId
        ({ st with store := r2.2, table := updateInodeMappings st.table oldPath newPath },
         .ok ())
      | none =>
        match getNoteIdByPath st.store dbOldPath with
        | none => (st, .error .enoent)
        | some noteId =>
          match getNoteById st.store noteId with
          | none => (st, .error .enoent)
          | some note =>
            match fileStem newName with
            | none => (st, .error .einval)
            | some title =>
              match fileExtension newName with
              | none => (st, .error .einval)
              | some syn =>
                let r1 := updateNote st.store noteId title note.abstractText
                  note.content syn
                let r2 := updateNoteParent r1.2 noteId newParentId
                ({ st with store := r2.2,
                           table := updateInodeMappings st.table oldPath newPath },
                 .ok ())

/-- Child-entry pushing loop of `readdir` (the `seen_names` set starts
empty; `.` and `..` are pre-pushed but not recorded as seen). -/
def pushEntries (acc : InodeTable × List String × List (Nat × FileKind × String))
    (items : List (FileKind × String × String)) :
    InodeTable × List String × List (Nat × FileKind × String) :=
  items.foldl
    (fun acc item =>
      if item.2.1 ∈ acc.2.1 then acc
      else
        let r := getOrCreateInode acc.1 item.2.2
        (r.2, item.2.1 :: acc.2.1, acc.2.2 ++ [(r.1, item.1, item.2.1)]))
    acc

/-- Parent inode for the `..` entry of `readdir`. -/
def readdirParentIno (t : InodeTable) (path : String) : Nat :=
  if path = "/" then 1
  else
    match lastIdxOf '/' path.data with
    | some pos =>
      (mapLookup t.inodeMap (if pos = 0 then "/" else ⟨path.data.take pos⟩)).getD 1
    | none => 1

/-- The items (kind, basename, full path) a `readdir` listing iterates:
child folders first, then child notes. -/
def readdirItems (st : FsState) (path : String) (folderId : Option String) :
    List (FileKind × String × String) :=
  (listFoldersByParent st.store.folders folderId).map
    (fun f =>
      (FileKind.directory, f.title,
       if path = "/" then "/" ++ f.title else path ++ "/" ++ f.title)) ++
  (listNotesByParent st.store folderId st.userId).map
    (fun n =>
      (FileKind.regularFile, n.title ++ "." ++ n.syn,
       if path = "/" then "/" ++ (n.title ++ "." ++ n.syn)
       else path ++ "/" ++ (n.title ++ "." ++ n.syn)))

/-- Full entry list of a `readdir` reply before the offset skip, together
with the table after child-inode allocation. -/
def readdirEntries (st : FsState) (ino : Nat) (path : String)
    (folderId : Option String) : InodeTable × List (Nat × FileKind × String) :=
  let base := [(ino, FileKind.directory, "."),
               (readdirParentIno st.table path, FileKind.directory, "..")]
  let r := pushEntries (st.table, [], base) (readdirItems st path folderId)
  (r.1, r.2.2)

/-- The offset skip of `readdir`: entries are emitted from index `offset`
with cookie `i + 1` (the kernel buffer is taken as never filling up). -/
def emitEntries (entries : List (Nat × FileKind × String)) (offset : Nat) :
    List ((Nat × FileKind × String) × Nat) :=
  (entries.enum.drop offset).map (fun e => (e.2, e.1 + 1))

/-- `Filesystem::readdir`. -/
def readdir (st : FsState) (ino : Nat) (offset : Nat) :
    FsState × Except Errno (List ((Nat × FileKind × String) × Nat)) :=
  match mapLookup st.table.reverseInodeMap ino with
  | none => (st, .error .enoent)
  | some path =>
    if path = "/" then
      let r := readdirEntries st ino path none
      ({ st with table := r.1 }, .ok (emitEntries r.2 offset))
    else
      match getFolderIdByPath st.store.folders (normalizePathForDb path) with
      | none => (st, .error .enotdir)
      | some fid =>
        let r := readdirEntries st ino path (some fid)
        ({ st with table := r.1 }, .ok (emitEntries r.2 offset))

/-! ## Concrete example states -/

/-- A freshly mounted filesystem over an empty store. -/
def emptyExample : FsState :=
  { store := { folders := [], notes := [] }, table := initTable, userId := "u" }

/-- A store with a root folder `d` containing a child folder `c`. -/
def rmdirNonEmptyExample : FsState :=
  { store := { folders := [⟨"f1", "d", none⟩, ⟨"f2", "c", some "f1"⟩], notes := [] },
    table := initTable, userId := "u" }

/-- A store with a root folder titled `a.b` (a folder at the path `a.b`). -/
def folderCollisionExample : FsState :=
  { store := { folders := [⟨"f1", "a.b", none⟩], notes := [] },
    table := initTable, userId := "u" }

/-- A store with a root note at path `a.md`. -/
def noteCollisionExample : FsState :=
  { store := { folders := [], notes := [⟨"n1", "a", some "", [], "md", none, "u"⟩] },
    table := initTable, userId := "u" }

/-- A store with a root folder titled `.d` — an ignored name that exists as
a folder. -/
def dotFolderExample : FsState :=
  { store := { folders := [⟨"f1", ".d", none⟩], notes := [] },
    table := initTable, userId := "u" }

/-- The notes-row update function of `update_note`. -/
def updateNoteRow (nid title : String) (ab : Option String) (co : List Nat)
    (sy : String) (n : Note) : Note :=
  if n.id = nid then
    { n with title := title, abstractText := ab, content := co, syn := sy }
  else n

/-- An existing note `t.md` at the root, already known to the inode table
as inode 2. -/
def writeExample : FsState :=
  { store := { folders := [], notes := [⟨"n1", "t", some "", [], "md", none, "u"⟩] },
    table := { inodeMap := [("/t.md", 2), ("/", 1)],
               reverseInodeMap := [(2, "/t.md"), (1, "/")], nextInode := 3 },
    userId := "u" }

/-- A note whose content is the two-byte UTF-8 character U+00E9. -/
def accentExample : FsState :=
  { store := { folders := [],
               notes := [⟨"n1", "t", some "", [0xC3, 0xA9], "md", none, "u"⟩] },
    table := { inodeMap := [("/t.md", 2), ("/", 1)],
               reverseInodeMap := [(2, "/t.md"), (1, "/")], nextInode := 3 },
    userId := "u" }

/-- The no-collision hypothesis: no rewritten subtree path equals any key
of the map.  `NoCollision t old new` is what makes the Rust `HashMap`
insert loop loss-free. -/
def NoCollision (t : InodeTable) (old new : String) : Prop :=
  ∀ p, mapLookup t.inodeMap p ≠ none → inSubtreeOf old p = true →
    ∀ q, mapLookup t.inodeMap q ≠ none → rewriteSubtreePath old new p ≠ q

/-- Example for C7: a root folder `a` whose subtree holds two table
entries; the rename targets collide with no existing key. -/
def renameGoodExample : FsState :=
  { store := { folders := [⟨"f1", "a", none⟩], notes := [] },
    table := { inodeMap := [("/", 1), ("/a", 2), ("/a/n.md", 3)],
               reverseInodeMap := [(1, "/"), (2, "/a"), (3, "/a/n.md")],
               nextInode := 4 },
    userId := "u" }

/-- Counterexample state for C7: the table already maps the rename target
`/.q.swp` (a shim-created entry) to inode 2 while the store holds the note
`x.md`. -/
def renameCollisionExample : FsState :=
  { store := { folders := [], notes := [⟨"n1", "x", some "", [], "md", none, "u"⟩] },
    table := { inodeMap := [("/", 1), ("/.q.swp", 2), ("/x.md", 3)],
               reverseInodeMap := [(1, "/"), (2, "/.q.swp"), (3, "/x.md")],
               nextInode := 4 },
    userId := "u" }

/-- The spec's Inode Table invariants: duplicate-free keys, the two maps
are inverses, only `/` maps to inode 1, and `next` strictly exceeds every
allocated inode (with `next ≥ 2`). -/
structure TableInv (t : InodeTable) : Prop where
  fwdKeys : (t.inodeMap.map (·.1)).Nodup
  bij : ∀ p i, mapLookup t.inodeMap p = some i ↔
    mapLookup t.reverseInodeMap i = some p
  root : ∀ p, mapLookup t.inodeMap p = some 1 → p = "/"
  bound : ∀ p i, mapLookup t.inodeMap p = some i → i < t.nextInode
  two : 2 ≤ t.nextInode

/-- The three table-mutating primitives of `ExampleFuseFs`: handlers
allocate via `get_or_create_inode`, `unlink`/`rmdir` remove, and `rename`
calls `update_inode_mappings`. -/
inductive TableOp : Type where
  | getOrCreate (p : String) : TableOp
  | remove (p : String) : TableOp
  | renameSubtree (oldPath newPath : String) : TableOp

deriving DecidableEq, Repr

def applyOp (t : InodeTable) : TableOp → InodeTable
  | TableOp.getOrCreate p => (getOrCreateInode t p).2
  | TableOp.remove p => removeInodeFor t p
  | TableOp.renameSubtree o n => updateInodeMappings t o n

def applyTrace (t : InodeTable) (ops : List TableOp) : InodeTable :=
  ops.foldl applyOp t

/-- Side condition for a loss-free step: a rename must not move the root
and no rewritten path may collide with an existing key; the other ops are
unconditional. -/
def GoodOp (t : InodeTable) : TableOp → Prop
  | TableOp.renameSubtree o n => inSubtreeOf o "/" = false ∧ NoCollision t o n
  | _ => True

def GoodTrace : InodeTable → List TableOp → Prop
  | _, [] => True
  | t, op :: ops => GoodOp t op ∧ GoodTrace (applyOp t op) ops

/-- Trace reaching a colliding rename: `/a` is renamed onto the existing
key `/b`. -/
def collisionTrace : List TableOp :=
  [TableOp.getOrCreate "/a", TableOp.getOrCreate "/b",
   TableOp.renameSubtree "/a" "/b"]

/-- A collision-free trace: allocate `/a`, rename it to `/b`, remove it. -/
def goodTrace : List TableOp :=
  [TableOp.getOrCreate "/a", TableOp.renameSubtree "/a" "/b",
   TableOp.remove "/b"]

/-! ## Claim C9 — readdir contents -/

/-- Basenames the child loop of `readdir` emits, given the `seen_names`
already recorded: first occurrence of each name, in item order. -/
def dedupNames (seen : List String) :
    List (FileKind × String × String) → List String
  | [] => []
  | item :: items =>
    if item.2.1 ∈ seen then dedupNames seen items
    else item.2.1 :: dedupNames (item.2.1 :: seen) items

/-- A store with a root folder `d` and a root note `t.md`, for the C9
witness. -/
def readdirExample : FsState :=
  { store := { folders := [⟨"f1", "d", none⟩],
               notes := [⟨"n1", "t", some "", [], "md", none, "u"⟩] },
    table := initTable, userId := "u" }

/-! ## Theorems -/

theorem mapLookup_mapErase_self {α β : Type} [DecidableEq α]
    (m : List (α × β)) (k : α) : mapLookup (mapErase m k) k = none := by
  induction m with
  | nil => rfl
  | cons e t ih =>
    obtain ⟨a, b⟩ := e
    by_cases h : a = k <;> simp [mapErase, mapLookup, h, ih]

theorem mapLookup_mapErase_ne {α β : Type} [DecidableEq α]
    (m : List (α × β)) (k k' : α) (h : k' ≠ k) :
    mapLookup (mapErase m k) k' = mapLookup m k' := by
  induction m with
  | nil => rfl
  | cons e t ih =>
    obtain ⟨a, b⟩ := e
    simp only [mapErase, mapLookup]
    by_cases ha : a = k
    · rw [if_pos ha, ih, if_neg (by rw [ha]; exact fun hh => h hh.symm)]
    · rw [if_neg ha]
      by_cases ha' : a = k' <;> simp [mapLookup, ha', ih]

@[simp] theorem mapLookup_mapInsert_self {α β : Type} [DecidableEq α]
    (m : List (α × β)) (k : α) (v : β) :
    mapLookup (mapInsert m k v) k = some v := by
  simp [mapInsert, mapLookup]

theorem mapLookup_mapInsert_ne {α β : Type} [DecidableEq α]
    (m : List (α × β)) (k k' : α) (v : β) (h : k' ≠ k) :
    mapLookup (mapInsert m k v) k' = mapLookup m k' := by
  have hk : ¬ k = k' := fun hh => h hh.symm
  simp [mapInsert, mapLookup, hk, mapLookup_mapErase_ne m k k' h]

/-! ## Helper lemmas -/

theorem getOrCreateInode_lookup_self (t : InodeTable) (p : String) :
    mapLookup (getOrCreateInode t p).2.inodeMap p = some (getOrCreateInode t p).1 := by
  cases h : mapLookup t.inodeMap p with
  | some i => simp [getOrCreateInode, h]
  | none => simp [getOrCreateInode, h]

/-! ## Claim C1 — rmdir on a non-empty folder -/

/-- C1 (amended): for every folder whose child count (folders plus notes) is
non-zero, `rmdir(parent, name)` on that folder leaves the entire state (in
particular the store) unchanged and replies `EIO` — not `ENOTEMPTY`. -/
theorem claim1_rmdir_nonempty_eio (st : FsState) (parent : Nat)
    (name parentPath folderId : String)
    (hpp : mapLookup st.table.reverseInodeMap parent = some parentPath)
    (hfid : getFolderIdByPath st.store.folders
      (normalizePathForDb
        (if parentPath = "/" then "/" ++ name else parentPath ++ "/" ++ name)) =
      some folderId)
    (hcnt : (getChildCount st.store (some folderId) st.userId).1 +
            (getChildCount st.store (some folderId) st.userId).2 ≠ 0) :
    rmdir st parent name = (st, .error .eio) := by
  have h2 : (getChildCount st.store (some folderId) st.userId).2 +
            (getChildCount st.store (some folderId) st.userId).1 > 0 := by omega
  simp only [rmdir, hpp, hfid]
  rw [if_pos h2]

/-- C1 counterexample: on a store where folder `d` has one child folder,
`rmdir(/, "d")` replies `EIO`, not `ENOTEMPTY` (the store is unchanged). -/
theorem claim1_counterexample :
    (rmdir rmdirNonEmptyExample 1 "d").2 = .error .eio ∧
    (rmdir rmdirNonEmptyExample 1 "d").2 ≠ .error .enotempty ∧
    (rmdir rmdirNonEmptyExample 1 "d").1.store = rmdirNonEmptyExample.store ∧
    getChildCount rmdirNonEmptyExample.store (some "f1") "u" = (1, 0) := by
  decide

/-- C1 witness. -/
theorem claim1_witness :
    rmdir rmdirNonEmptyExample 1 "d" = (rmdirNonEmptyExample, .error .eio) :=
  claim1_rmdir_nonempty_eio rmdirNonEmptyExample 1 "d" "/" "f1"
    (by decide) (by decide) (by decide)

/-! ## Claim C3 — create/mknod on an existing path -/

/-- C3 (amended): `create(parent, name)` replies `EEXIST` (leaving the whole
state unchanged) exactly when the target path already exists as a note:
with a note at the path it replies `EEXIST`, without one it never does —
in particular a folder at the target path is not detected — and `mknod`
performs no existence check at all, so it never replies `EEXIST`. -/
theorem claim3_exists_check :
    (∀ (st : FsState) (parent : Nat) (name freshId parentPath nid : String),
      mapLookup st.table.reverseInodeMap parent = some parentPath →
      getNoteIdByPath st.store
        (normalizePathForDb
          (if parentPath = "/" then "/" ++ name else parentPath ++ "/" ++ name)) =
        some nid →
      create st parent name freshId = (st, .error .eexist)) ∧
    (∀ (st : FsState) (parent : Nat) (name freshId parentPath : String),
      mapLookup st.table.reverseInodeMap parent = some parentPath →
      getNoteIdByPath st.store
        (normalizePathForDb
          (if parentPath = "/" then "/" ++ name else parentPath ++ "/" ++ name)) =
        none →
      (create st parent name freshId).2 ≠ .error .eexist) ∧
    (∀ (st : FsState) (parent : Nat) (name : String) (mode : Nat) (freshId : String),
      (mknod st parent name mode freshId).2 ≠ .error .eexist) := by
  refine ⟨?_, ?_, ?_⟩
  · intro st parent name freshId parentPath nid hpp hnid
    simp only [create, hpp, hnid]
  · intro st parent name freshId parentPath hpp hnone
    simp only [create, hpp, hnone]
    split
    · simp
    · split
      · simp
      · split
        · simp
        · split <;> simp
  · intro st parent name mode freshId
    unfold mknod
    repeat' split
    all_goals simp

/-- C3 counterexample: the path `a.b` exists as a folder, yet
`create(/, "a.b")` does not reply `EEXIST`; it succeeds and writes a note
into the store. -/
theorem claim3_counterexample :
    getFolderIdByPath folderCollisionExample.store.folders "a.b" = some "f1" ∧
    (create folderCollisionExample 1 "a.b" "n1").2 = .ok (fileAttr 2 0) ∧
    (create folderCollisionExample 1 "a.b" "n1").1.store ≠
      folderCollisionExample.store := by
  decide

/-- C3 witness. -/
theorem claim3_witness :
    create noteCollisionExample 1 "a.md" "n2" = (noteCollisionExample, .error .eexist) :=
  claim3_exists_check.1 noteCollisionExample 1 "a.md" "n2" "/" "n1"
    (by decide) (by decide)

/-! ## Claim C4 — ignored names allocate a shim inode only -/

/-- C4 (amended): for an ignored name, `create` (when the target does not
already exist as a note — that check happens first) allocates an inode that
exists only in the inode table, performs no store write, and replies with
synthetic regular-file attributes; `mknod`, however, does not implement the
ignored-name shim (see the counterexample). -/
theorem claim4_create_shim (st : FsState) (parent : Nat)
    (name freshId parentPath : String)
    (hpp : mapLookup st.table.reverseInodeMap parent = some parentPath)
    (hnone : getNoteIdByPath st.store
      (normalizePathForDb
        (if parentPath = "/" then "/" ++ name else parentPath ++ "/" ++ name)) =
      none)
    (hig : isEditorTempFile name = true) :
    create st parent name freshId =
      ({ st with
          table := (getOrCreateInode st.table
            (if parentPath = "/" then "/" ++ name else parentPath ++ "/" ++ name)).2 },
       .ok (fileAttr (getOrCreateInode st.table
            (if parentPath = "/" then "/" ++ name else parentPath ++ "/" ++ name)).1 0)) ∧
    (create st parent name freshId).1.store = st.store ∧
    mapLookup (create st parent name freshId).1.table.inodeMap
        (if parentPath = "/" then "/" ++ name else parentPath ++ "/" ++ name) =
      some (getOrCreateInode st.table
        (if parentPath = "/" then "/" ++ name else parentPath ++ "/" ++ name)).1 := by
  have hc : create st parent name freshId =
      ({ st with
          table := (getOrCreateInode st.table
            (if parentPath = "/" then "/" ++ name else parentPath ++ "/" ++ name)).2 },
       .ok (fileAttr (getOrCreateInode st.table
            (if parentPath = "/" then "/" ++ name else parentPath ++ "/" ++ name)).1 0)) := by
    simp only [create, hpp, hnone, hig, if_true]
  refine ⟨hc, ?_, ?_⟩
  · rw [hc]
  · rw [hc]
    exact getOrCreateInode_lookup_self st.table _

/-- C4 counterexample: `mknod` with the ignored name `#a.md#` writes a note
into the store (no shim), so the claim's "perform no store write" fails. -/
theorem claim4_counterexample :
    isEditorTempFile "#a.md#" = true ∧
    (mknod emptyExample 1 "#a.md#" 420 "id1").1.store ≠ emptyExample.store ∧
    (mknod emptyExample 1 "#a.md#" 420 "id1").1.store.notes =
      [⟨"id1", "#a", some "", [], "md#", none, "u"⟩] := by
  decide

/-- C4 witness. -/
theorem claim4_witness :
    (create emptyExample 1 ".file.swp" "id2").1.store = emptyExample.store ∧
    mapLookup (create emptyExample 1 ".file.swp" "id2").1.table.inodeMap
      "/.file.swp" = some 2 :=
  ⟨(claim4_create_shim emptyExample 1 ".file.swp" "id2" "/"
      (by decide) (by decide) (by decide)).2.1,
   (claim4_create_shim emptyExample 1 ".file.swp" "id2" "/"
      (by decide) (by decide) (by decide)).2.2⟩

/-! ## Claim C10 — getattr/lookup after a create shim -/

/-- C10 (amended): after `create` shims an ignored name (fresh path, no note
at the target), a `getattr` on the returned inode and a `lookup` of the name
both reply `ENOENT` — provided the path also does not name a folder in the
store (the folder probe is not part of `create`, so a folder there would
make `getattr`/`lookup` answer with directory attributes instead).  The shim
inode remains in the table. -/
theorem claim10_shim_probes_miss (st : FsState) (parent : Nat)
    (name freshId parentPath fullPath dbPath : String)
    (hP : fullPath = if parentPath = "/" then "/" ++ name else parentPath ++ "/" ++ name)
    (hP' : dbPath = normalizePathForDb fullPath)
    (hpp : mapLookup st.table.reverseInodeMap parent = some parentPath)
    (hig : isEditorTempFile name = true)
    (hnote : getNoteIdByPath st.store dbPath = none)
    (hfold : getFolderIdByPath st.store.folders dbPath = none)
    (hfresh : mapLookup st.table.inodeMap fullPath = none)
    (hpar : parent ≠ st.table.nextInode)
    (hone : st.table.nextInode ≠ 1) :
    (create st parent name freshId).2 = .ok (fileAttr st.table.nextInode 0) ∧
    getattr (create st parent name freshId).1 st.table.nextInode =
      ((create st parent name freshId).1, .error .enoent) ∧
    (lookup (create st parent name freshId).1 parent name).2 = .error .enoent ∧
    mapLookup (create st parent name freshId).1.table.inodeMap fullPath =
      some st.table.nextInode := by
  subst hP hP'
  have hgoc : getOrCreateInode st.table
      (if parentPath = "/" then "/" ++ name else parentPath ++ "/" ++ name) =
      (st.table.nextInode,
       { inodeMap := mapInsert st.table.inodeMap
           (if parentPath = "/" then "/" ++ name else parentPath ++ "/" ++ name)
           st.table.nextInode,
         reverseInodeMap := mapInsert st.table.reverseInodeMap st.table.nextInode
           (if parentPath = "/" then "/" ++ name else parentPath ++ "/" ++ name),
         nextInode := st.table.nextInode + 1 }) := by
    simp [getOrCreateInode, hfresh]
  have hc : create st parent name freshId =
      ({ st with
          table :=
            { inodeMap := mapInsert st.table.inodeMap
                (if parentPath = "/" then "/" ++ name else parentPath ++ "/" ++ name)
                st.table.nextInode,
              reverseInodeMap := mapInsert st.table.reverseInodeMap st.table.nextInode
                (if parentPath = "/" then "/" ++ name else parentPath ++ "/" ++ name),
              nextInode := st.table.nextInode + 1 } },
       .ok (fileAttr st.table.nextInode 0)) := by
    simp only [create, hpp, hnote, hig, if_true, hgoc]
  refine ⟨by rw [hc], ?_, ?_, ?_⟩
  · rw [hc]
    simp only [getattr]
    rw [if_neg hone]
    rw [show mapLookup
        (mapInsert st.table.reverseInodeMap st.table.nextInode
          (if parentPath = "/" then "/" ++ name else parentPath ++ "/" ++ name))
        st.table.nextInode =
      some (if parentPath = "/" then "/" ++ name else parentPath ++ "/" ++ name)
      from mapLookup_mapInsert_self _ _ _]
    simp only [hfold, hnote]
  · rw [hc]
    simp only [lookup]
    rw [mapLookup_mapInsert_ne _ _ _ _ hpar, hpp]
    simp only [hfold, hnote]
  · rw [hc]
    exact mapLookup_mapInsert_self _ _ _

/-- C10 counterexample: the ignored name `.d` names a folder in the store;
`create(/, ".d")` still shims (replies success with a fresh inode), but the
subsequent `getattr` on that inode replies with directory attributes, not
`ENOENT`. -/
theorem claim10_counterexample :
    isEditorTempFile ".d" = true ∧
    (create dotFolderExample 1 ".d" "id9").2 = .ok (fileAttr 2 0) ∧
    (getattr (create dotFolderExample 1 ".d" "id9").1 2).2 = .ok (dirAttr 2) ∧
    (getattr (create dotFolderExample 1 ".d" "id9").1 2).2 ≠ .error .enoent := by
  decide

/-- C10 witness. -/
theorem claim10_witness :
    (create emptyExample 1 ".f.swp" "id9").2 = .ok (fileAttr 2 0) ∧
    getattr (create emptyExample 1 ".f.swp" "id9").1 2 =
      ((create emptyExample 1 ".f.swp" "id9").1, .error .enoent) ∧
    (lookup (create emptyExample 1 ".f.swp" "id9").1 1 ".f.swp").2 = .error .enoent ∧
    mapLookup (create emptyExample 1 ".f.swp" "id9").1.table.inodeMap "/.f.swp" =
      some 2 :=
  claim10_shim_probes_miss emptyExample 1 ".f.swp" "id9" "/" "/.f.swp" ".f.swp"
    (by decide) (by decide) (by decide) (by decide) (by decide) (by decide)
    (by decide) (by decide) (by decide)

/-! ## UTF-8 lemmas -/

@[simp] theorem validUtf8Go_nil (f : Nat) : validUtf8Go f [] = true := by
  cases f <;> rfl

@[simp] theorem utf8LossyGo_nil (f : Nat) : utf8LossyGo f [] = [] := by
  cases f <;> rfl

theorem utf8Classify_valid_facts (b : Nat) (rest : List Nat) (w : Nat)
    (h : utf8Classify b rest = .valid w) : 1 ≤ w ∧ w - 1 ≤ rest.length := by
  unfold utf8Classify at h
  repeat' split at h
  all_goals simp_all
  all_goals omega

theorem utf8Classify_append (b : Nat) (rest ys : List Nat) (w : Nat)
    (h : utf8Classify b rest = .valid w) :
    utf8Classify b (rest ++ ys) = .valid w := by
  match rest with
  | [] =>
    unfold utf8Classify at h ⊢
    repeat' split at h
    all_goals simp_all
    all_goals (try (split_ifs <;> try rfl))
    all_goals omega
  | [c] =>
    unfold utf8Classify at h ⊢
    repeat' split at h
    all_goals simp_all
    all_goals (try (split_ifs <;> try rfl))
    all_goals omega
  | [c, d] =>
    unfold utf8Classify at h ⊢
    repeat' split at h
    all_goals simp_all
    all_goals (try (split_ifs <;> try rfl))
    all_goals omega
  | c :: d :: e :: t =>
    unfold utf8Classify at h ⊢
    repeat' split at h
    all_goals simp_all
    all_goals (try (split_ifs <;> try rfl))
    all_goals omega

theorem validUtf8Go_congr (f₁ : Nat) :
    ∀ (f₂ : Nat) (l : List Nat), l.length ≤ f₁ → l.length ≤ f₂ →
      validUtf8Go f₁ l = validUtf8Go f₂ l := by
  induction f₁ with
  | zero =>
    intro f₂ l h1 _
    have : l = [] := List.eq_nil_of_length_eq_zero (by omega)
    subst this
    simp
  | succ g ih =>
    intro f₂ l h1 h2
    match l, f₂ with
    | [], _ => simp
    | b :: rest, 0 => simp at h2
    | b :: rest, f + 1 =>
      simp only [validUtf8Go]
      cases hc : utf8Classify b rest with
      | valid w =>
        dsimp only
        have hlen : (rest.drop (w - 1)).length ≤ g := by
          simp only [List.length_drop]
          simp only [List.length_cons] at h1
          omega
        have hlen2 : (rest.drop (w - 1)).length ≤ f := by
          simp only [List.length_drop]
          simp only [List.length_cons] at h2
          omega
        exact ih f (rest.drop (w - 1)) hlen hlen2
      | invalid e => rfl
      | incomplete => rfl

theorem utf8LossyGo_congr (f₁ : Nat) :
    ∀ (f₂ : Nat) (l : List Nat), l.length ≤ f₁ → l.length ≤ f₂ →
      utf8LossyGo f₁ l = utf8LossyGo f₂ l := by
  induction f₁ with
  | zero =>
    intro f₂ l h1 _
    have : l = [] := List.eq_nil_of_length_eq_zero (by omega)
    subst this
    simp
  | succ g ih =>
    intro f₂ l h1 h2
    match l, f₂ with
    | [], _ => simp
    | b :: rest, 0 => simp at h2
    | b :: rest, f + 1 =>
      simp only [utf8LossyGo]
      cases hc : utf8Classify b rest with
      | valid w =>
        dsimp only
        have hlen : (rest.drop (w - 1)).length ≤ g := by
          simp only [List.length_drop]
          simp only [List.length_cons] at h1
          omega
        have hlen2 : (rest.drop (w - 1)).length ≤ f := by
          simp only [List.length_drop]
          simp only [List.length_cons] at h2
          omega
        rw [ih f (rest.drop (w - 1)) hlen hlen2]
      | invalid e =>
        dsimp only
        have hlen : (rest.drop (e - 1)).length ≤ g := by
          simp only [List.length_drop]
          simp only [List.length_cons] at h1
          omega
        have hlen2 : (rest.drop (e - 1)).length ≤ f := by
          simp only [List.length_drop]
          simp only [List.length_cons] at h2
          omega
        rw [ih f (rest.drop (e - 1)) hlen hlen2]
      | incomplete => rfl

theorem utf8LossyGo_of_valid (f : Nat) :
    ∀ (l : List Nat), l.length ≤ f → validUtf8Go f l = true →
      utf8LossyGo f l = l := by
  induction f with
  | zero =>
    intro l h1 _
    have : l = [] := List.eq_nil_of_length_eq_zero (by omega)
    subst this; simp
  | succ g ih =>
    intro l h1 hv
    match l with
    | [] => simp
    | b :: rest =>
      cases hc : utf8Classify b rest with
      | valid w =>
        simp only [validUtf8Go, hc] at hv
        simp only [utf8LossyGo, hc]
        obtain ⟨hw1, hw2⟩ := utf8Classify_valid_facts b rest w hc
        have hlen : (rest.drop (w - 1)).length ≤ g := by
          simp only [List.length_drop]
          simp only [List.length_cons] at h1
          omega
        rw [ih (rest.drop (w - 1)) hlen hv]
        have hw : w = (w - 1) + 1 := by omega
        rw [hw, List.take_succ_cons]
        simp only [Nat.add_sub_cancel]
        rw [List.cons_append, List.take_append_drop]
      | invalid e =>
        simp only [validUtf8Go, hc] at hv
        exact Bool.noConfusion hv
      | incomplete =>
        simp only [validUtf8Go, hc] at hv
        exact Bool.noConfusion hv

/-- Valid UTF-8 survives `from_utf8_lossy` unchanged. -/
theorem utf8Lossy_of_valid (l : List Nat) (h : validUtf8 l = true) :
    utf8Lossy l = l :=
  utf8LossyGo_of_valid l.length l le_rfl h

theorem validUtf8Go_append (f : Nat) :
    ∀ (a ys : List Nat), a.length ≤ f → validUtf8Go f a = true →
      validUtf8 ys = true → validUtf8 (a ++ ys) = true := by
  induction f with
  | zero =>
    intro a ys h1 _ hy
    have : a = [] := List.eq_nil_of_length_eq_zero (by omega)
    subst this; simpa using hy
  | succ g ih =>
    intro a ys h1 ha hy
    match a with
    | [] => simpa using hy
    | b :: rest =>
      cases hc : utf8Classify b rest with
      | valid w =>
        simp only [validUtf8Go, hc] at ha
        obtain ⟨hw1, hw2⟩ := utf8Classify_valid_facts b rest w hc
        show validUtf8Go (((b :: rest) ++ ys).length) ((b :: rest) ++ ys) = true
        rw [List.cons_append, List.length_cons]
        simp only [validUtf8Go, utf8Classify_append b rest ys w hc]
        rw [List.drop_append_of_le_length hw2]
        have hlg : (rest.drop (w - 1) ++ ys).length ≤ (rest ++ ys).length := by
          simp only [List.length_append, List.length_drop]
          omega
        rw [validUtf8Go_congr (rest ++ ys).length (rest.drop (w - 1) ++ ys).length
          (rest.drop (w - 1) ++ ys) hlg le_rfl]
        have hlen : (rest.drop (w - 1)).length ≤ g := by
          simp only [List.length_drop]
          simp only [List.length_cons] at h1
          omega
        exact ih (rest.drop (w - 1)) ys hlen ha hy
      | invalid e =>
        simp only [validUtf8Go, hc] at ha
        exact Bool.noConfusion ha
      | incomplete =>
        simp only [validUtf8Go, hc] at ha
        exact Bool.noConfusion ha

/-- Concatenation of valid UTF-8 strings is valid. -/
theorem validUtf8_append (a ys : List Nat) (ha : validUtf8 a = true)
    (hy : validUtf8 ys = true) : validUtf8 (a ++ ys) = true :=
  validUtf8Go_append a.length a ys le_rfl ha hy

/-- Zero padding (NUL bytes) is valid UTF-8. -/
theorem validUtf8_replicate_zero (n : Nat) :
    validUtf8 (List.replicate n 0) = true := by
  induction n with
  | zero => rfl
  | succ m ih =>
    show validUtf8Go (List.replicate (m + 1) 0).length (List.replicate (m + 1) 0) = true
    rw [List.replicate_succ, List.length_cons]
    simp only [validUtf8Go]
    have hc : utf8Classify 0 (List.replicate m 0) = .valid 1 := rfl
    rw [hc]
    dsimp only
    simpa [validUtf8] using ih

/-! ## Store update stability lemmas -/

theorem find?_map_congr {α : Type} (g : α → α) (q : α → Bool) (l : List α)
    (h : ∀ a ∈ l, q (g a) = q a) :
    (l.map g).find? q = (l.find? q).map g := by
  induction l with
  | nil => rfl
  | cons a t ih =>
    simp only [List.map_cons]
    cases hq : q a with
    | true =>
      rw [List.find?_cons_of_pos _ (by rw [h a (by simp), hq]),
          List.find?_cons_of_pos _ hq]
      rfl
    | false =>
      rw [List.find?_cons_of_neg _
            (by rw [h a (by simp), hq]; exact Bool.false_ne_true),
          List.find?_cons_of_neg _ (by rw [hq]; exact Bool.false_ne_true)]
      exact ih (fun x hx => h x (by simp [hx]))

theorem getNoteById_mem (s : Store) (nid : String) (n : Note)
    (h : getNoteById s nid = some n) : n ∈ s.notes ∧ n.id = nid := by
  unfold getNoteById at h
  refine ⟨List.mem_of_find?_eq_some h, ?_⟩
  have := List.find?_some h
  simpa using this

/-- With unique note ids, any note in the store with the id found by
`getNoteById` is that note. -/
theorem note_unique_by_id (s : Store) (nid : String) (note0 : Note)
    (hids : (s.notes.map (·.id)).Nodup)
    (hn0 : getNoteById s nid = some note0) :
    ∀ a ∈ s.notes, a.id = nid → a = note0 := by
  obtain ⟨hmem, hid⟩ := getNoteById_mem s nid note0 hn0
  intro a ha haid
  exact List.inj_on_of_nodup_map hids ha hmem (by rw [haid, hid])

theorem updateNote_notes_eq_map (s : Store) (nid title : String)
    (ab : Option String) (co : List Nat) (sy : String) :
    (updateNote s nid title ab co sy).2.notes =
      s.notes.map (updateNoteRow nid title ab co sy) := rfl

theorem updateNote_folders (s : Store) (nid title : String)
    (ab : Option String) (co : List Nat) (sy : String) :
    (updateNote s nid title ab co sy).2.folders = s.folders := rfl

theorem getNoteById_updateNote (s : Store) (nid title : String)
    (ab : Option String) (co : List Nat) (sy : String) (note0 : Note)
    (hn0 : getNoteById s nid = some note0) :
    getNoteById (updateNote s nid title ab co sy).2 nid =
      some { note0 with title := title, abstractText := ab, content := co,
                        syn := sy } := by
  unfold getNoteById at hn0 ⊢
  rw [updateNote_notes_eq_map]
  rw [find?_map_congr (updateNoteRow nid title ab co sy)
    (fun n => decide (n.id = nid)) s.notes
    (by
      intro a _
      unfold updateNoteRow
      by_cases h : a.id = nid <;> simp [h])]
  rw [hn0]
  have hid : note0.id = nid := by
    have := List.find?_some hn0
    simpa using this
  simp [updateNoteRow, hid]

/-- `update_note` with the note's own title and syntax does not move the
note's path, so the path lookup still finds the same id. -/
theorem getNoteIdByPath_updateNote (s : Store) (nid : String) (note0 : Note)
    (ab : Option String) (co : List Nat) (p : String)
    (hids : (s.notes.map (·.id)).Nodup)
    (hn0 : getNoteById s nid = some note0)
    (hfind : getNoteIdByPath s p = some nid) :
    getNoteIdByPath (updateNote s nid note0.title ab co note0.syn).2 p =
      some nid := by
  unfold getNoteIdByPath at hfind ⊢
  rw [updateNote_notes_eq_map, updateNote_folders]
  rw [find?_map_congr (updateNoteRow nid note0.title ab co note0.syn)
    (fun n => decide (notePathOf s.folders n = some p)) s.notes
    (by
      intro a ha
      unfold updateNoteRow
      by_cases h : a.id = nid
      · have haeq : a = note0 := note_unique_by_id s nid note0 hids hn0 a ha h
        subst haeq
        rw [if_pos h]
        cases hpar : a.parentId <;> simp [notePathOf, hpar]
      · rw [if_neg h])]
  cases hf : s.notes.find? (fun n => decide (notePathOf s.folders n = some p)) with
  | none => rw [hf] at hfind; simp at hfind
  | some nf =>
    rw [hf] at hfind
    have hnfid : (updateNoteRow nid note0.title ab co note0.syn nf).id = nf.id := by
      unfold updateNoteRow
      by_cases h : nf.id = nid <;> simp [h]
    simpa [hnfid] using hfind

theorem read_full_content (l : List Nat) :
    (if 0 < l.length then l.drop 0 else []) = l := by
  cases l <;> simp

/-! ## Claim C2 — write at offset 0 then read -/

/-- C2 (amended): for an existing note and a byte string `D` that is valid
UTF-8, a successful `write(ino, offset=0, data=D)` followed by
`read(ino, offset=0)` returns exactly `D`.  (For invalid UTF-8 the
`String::from_utf8_lossy` conversion in `write` alters the bytes — see the
counterexample.  Note ids are assumed unique, as the schema's primary key
guarantees.) -/
theorem claim2_write_read_roundtrip (st : FsState) (ino : Nat) (D : List Nat)
    (path nid : String) (note0 : Note)
    (hids : (st.store.notes.map (·.id)).Nodup)
    (hpath : mapLookup st.table.reverseInodeMap ino = some path)
    (hfold : getFolderIdByPath st.store.folders (normalizePathForDb path) = none)
    (hnid : getNoteIdByPath st.store (normalizePathForDb path) = some nid)
    (hn0 : getNoteById st.store nid = some note0)
    (hD : validUtf8 D = true) :
    (write st ino 0 D).2 = .ok D.length ∧
    (read (write st ino 0 D).1 ino 0).2 = .ok D := by
  have hw : write st ino 0 D =
      ({ st with store := (updateNote st.store nid note0.title note0.abstractText
          (utf8Lossy D) note0.syn).2 }, .ok D.length) := by
    simp [write, hpath, hfold, hnid, hn0]
  refine ⟨by rw [hw], ?_⟩
  rw [hw]
  simp only [read, hpath, updateNote_folders, hfold]
  rw [getNoteIdByPath_updateNote st.store nid note0 note0.abstractText
    (utf8Lossy D) (normalizePathForDb path) hids hn0 hnid]
  dsimp only
  rw [getNoteById_updateNote st.store nid note0.title note0.abstractText
    (utf8Lossy D) note0.syn note0 hn0]
  rw [utf8Lossy_of_valid D hD]
  simp only [read_full_content]

/-- C2 counterexample: writing the byte string `[0xFF]` (not valid UTF-8)
succeeds, but the subsequent read returns the U+FFFD replacement bytes,
not `[0xFF]`. -/
theorem claim2_counterexample :
    (write writeExample 2 0 [0xFF]).2 = .ok 1 ∧
    (read (write writeExample 2 0 [0xFF]).1 2 0).2 = .ok [0xEF, 0xBF, 0xBD] ∧
    (read (write writeExample 2 0 [0xFF]).1 2 0).2 ≠ .ok [0xFF] := by
  decide

/-- C2 witness. -/
theorem claim2_witness :
    (write writeExample 2 0 [104, 105]).2 = .ok ([104, 105] : List Nat).length ∧
    (read (write writeExample 2 0 [104, 105]).1 2 0).2 = .ok [104, 105] :=
  claim2_write_read_roundtrip writeExample 2 [104, 105] "/t.md" "n1"
    ⟨"n1", "t", some "", [], "md", none, "u"⟩
    (by decide) (by decide) (by decide) (by decide) (by decide) (by decide)

/-! ## Claim C5 — write past the end of the content -/

theorem write_combined_eq (content D : List Nat) (k : Nat)
    (hk : content.length < k) :
    (if k + D.length ≤ (content ++ List.replicate (k - content.length) 0).length
     then
       (content ++ List.replicate (k - content.length) 0).take k ++ D ++
         (content ++ List.replicate (k - content.length) 0).drop (k + D.length)
     else (content ++ List.replicate (k - content.length) 0).take k ++ D) =
    content ++ List.replicate (k - content.length) 0 ++ D := by
  have hlen : (content ++ List.replicate (k - content.length) 0).length = k := by
    simp only [List.length_append, List.length_replicate]
    omega
  have htake : (content ++ List.replicate (k - content.length) 0).take k =
      content ++ List.replicate (k - content.length) 0 := by
    apply List.take_of_length_le
    omega
  by_cases hD : D = []
  · subst hD
    rw [if_pos (by simp only [List.length_nil]; omega), htake]
    have hdrop : (content ++ List.replicate (k - content.length) 0).drop
        (k + List.length ([] : List Nat)) = [] := by
      apply List.drop_eq_nil_of_le
      simp only [List.length_nil]
      omega
    rw [hdrop]
    simp
  · rw [if_neg (by
      intro hcon
      rw [hlen] at hcon
      exact hD (List.eq_nil_of_length_eq_zero (by omega))), htake]

/-- C5 (amended): writing `D` at an offset `k` beyond the current content
length zero-pads to `k` and appends `D` — the content becomes
`content ++ 0^(k-len) ++ D`, of length `k + len(D)`, with zeros on
`[len, k)` and `D` on `[k, k+len(D))` — provided the stored content and `D`
are valid UTF-8 (otherwise the `from_utf8_lossy` conversion mangles the
bytes; see the counterexample). -/
theorem claim5_offset_write (st : FsState) (ino k : Nat) (D : List Nat)
    (path nid : String) (note0 : Note)
    (hids : (st.store.notes.map (·.id)).Nodup)
    (hpath : mapLookup st.table.reverseInodeMap ino = some path)
    (hfold : getFolderIdByPath st.store.folders (normalizePathForDb path) = none)
    (hnid : getNoteIdByPath st.store (normalizePathForDb path) = some nid)
    (hn0 : getNoteById st.store nid = some note0)
    (hk : note0.content.length < k)
    (hvc : validUtf8 note0.content = true)
    (hvD : validUtf8 D = true) :
    (write st ino k D).2 = .ok D.length ∧
    getNoteById (write st ino k D).1.store nid =
      some { note0 with content :=
        note0.content ++ List.replicate (k - note0.content.length) 0 ++ D } ∧
    (note0.content ++ List.replicate (k - note0.content.length) 0 ++ D).length
      = k + D.length ∧
    ((note0.content ++ List.replicate (k - note0.content.length) 0 ++ D).drop
        note0.content.length).take (k - note0.content.length) =
      List.replicate (k - note0.content.length) 0 ∧
    (note0.content ++ List.replicate (k - note0.content.length) 0 ++ D).drop k
      = D := by
  have hknz : ¬ k = 0 := by omega
  have hval : validUtf8
      (note0.content ++ List.replicate (k - note0.content.length) 0 ++ D) =
      true :=
    validUtf8_append _ _
      (validUtf8_append _ _ hvc (validUtf8_replicate_zero _)) hvD
  have hw : write st ino k D =
      ({ st with store := (updateNote st.store nid note0.title note0.abstractText
          (note0.content ++ List.replicate (k - note0.content.length) 0 ++ D)
          note0.syn).2 },
       .ok D.length) := by
    simp only [write, hpath, hfold, hnid, hn0, if_neg hknz, if_pos hk]
    rw [write_combined_eq note0.content D k hk,
        utf8Lossy_of_valid _ hval]
  have hreplen : (List.replicate (k - note0.content.length) 0).length =
      k - note0.content.length := List.length_replicate _ _
  have hpadlen : (note0.content ++
      List.replicate (k - note0.content.length) 0).length = k := by
    simp only [List.length_append, List.length_replicate]
    omega
  refine ⟨by rw [hw], ?_, ?_, ?_, ?_⟩
  · rw [hw]
    exact getNoteById_updateNote st.store nid note0.title note0.abstractText
      _ note0.syn note0 hn0
  · simp only [List.length_append, List.length_replicate]
    omega
  · rw [List.append_assoc, List.drop_left]
    exact List.take_left' hreplen
  · exact List.drop_left' hpadlen

/-- C5 counterexample: writing the single byte `0xFF` at offset 1 into an
empty note yields lossy-converted content `[0, 0xEF, 0xBF, 0xBD]` of
length 4, not the claimed `k + len(D) = 2`. -/
theorem claim5_counterexample :
    (write writeExample 2 1 [0xFF]).2 = .ok 1 ∧
    (getNoteById (write writeExample 2 1 [0xFF]).1.store "n1").map Note.content
      = some [0, 0xEF, 0xBF, 0xBD] ∧
    ([0, 0xEF, 0xBF, 0xBD] : List Nat).length ≠ 1 + ([0xFF] : List Nat).length := by
  decide

/-- C5 witness. -/
theorem claim5_witness :
    (write writeExample 2 3 [104]).2 = .ok 1 ∧
    getNoteById (write writeExample 2 3 [104]).1.store "n1" =
      some ⟨"n1", "t", some "", [0, 0, 0, 104], "md", none, "u"⟩ := by
  have h := claim5_offset_write writeExample 2 3 [104] "/t.md" "n1"
    ⟨"n1", "t", some "", [], "md", none, "u"⟩
    (by decide) (by decide) (by decide) (by decide) (by decide) (by decide)
    (by decide) (by decide)
  exact ⟨h.1, h.2.1⟩

/-! ## Claim C6 — setattr size truncation / extension -/

/-- C6 (amended): for an existing note whose stored content is valid UTF-8,
`setattr(ino, size=n)` truncates to the first `n` bytes when `n` is below
the current length — provided those first `n` bytes are valid UTF-8, i.e.
the cut lands on a character boundary (otherwise `from_utf8_lossy` replaces
the trailing fragment; see the counterexample) — zero-extends to length `n`
when `n` is larger, persists the result via `update_note`, and replies with
attributes whose size field equals `n`. -/
theorem claim6_setattr_size (st : FsState) (ino n : Nat)
    (mode uid gid : Option Nat) (path nid : String) (note0 : Note)
    (hpath : mapLookup st.table.reverseInodeMap ino = some path)
    (hfold : getFolderIdByPath st.store.folders (normalizePathForDb path) = none)
    (hnid : getNoteIdByPath st.store (normalizePathForDb path) = some nid)
    (hn0 : getNoteById st.store nid = some note0)
    (hvc : validUtf8 note0.content = true)
    (hcut : n < note0.content.length → validUtf8 (note0.content.take n) = true) :
    getNoteById (setattr st ino mode uid gid (some n)).1.store nid =
      some { note0 with content :=
        if n ≤ note0.content.length then note0.content.take n
        else note0.content ++ List.replicate (n - note0.content.length) 0 } ∧
    (setattr st ino mode uid gid (some n)).2 =
      .ok { ino := ino, size := n, blocks := (n + 511) / 512,
            kind := .regularFile, perm := mode.getD 0o644, nlink := 1,
            uid := uid.getD 501, gid := gid.getD 20 } := by
  have hbytes : (if n < note0.content.length then note0.content.take n
      else if note0.content.length < n then
        note0.content ++ List.replicate (n - note0.content.length) 0
      else note0.content) =
      (if n ≤ note0.content.length then note0.content.take n
       else note0.content ++ List.replicate (n - note0.content.length) 0) := by
    rcases Nat.lt_trichotomy n note0.content.length with h | h | h
    · rw [if_pos h, if_pos (le_of_lt h)]
    · rw [if_neg (by omega), if_neg (by omega), if_pos (by omega), h,
          List.take_length]
    · rw [if_neg (by omega), if_pos h, if_neg (by omega)]
  have hvt : validUtf8 (if n ≤ note0.content.length then note0.content.take n
      else note0.content ++ List.replicate (n - note0.content.length) 0) =
      true := by
    by_cases h : n ≤ note0.content.length
    · rw [if_pos h]
      rcases Nat.lt_or_ge n note0.content.length with hlt | hge
      · exact hcut hlt
      · have : n = note0.content.length := by omega
        rw [this, List.take_length]
        exact hvc
    · rw [if_neg h]
      exact validUtf8_append _ _ hvc (validUtf8_replicate_zero _)
  have htlen : (if n ≤ note0.content.length then note0.content.take n
      else note0.content ++ List.replicate (n - note0.content.length) 0).length
      = n := by
    by_cases h : n ≤ note0.content.length
    · rw [if_pos h, List.length_take]
      omega
    · rw [if_neg h]
      simp only [List.length_append, List.length_replicate]
      omega
  have hupd := getNoteById_updateNote st.store nid note0.title
    note0.abstractText
    (if n ≤ note0.content.length then note0.content.take n
     else note0.content ++ List.replicate (n - note0.content.length) 0)
    note0.syn note0 hn0
  have hs : setattr st ino mode uid gid (some n) =
      ({ st with store := (updateNote st.store nid note0.title
          note0.abstractText
          (if n ≤ note0.content.length then note0.content.take n
           else note0.content ++ List.replicate (n - note0.content.length) 0)
          note0.syn).2 },
       .ok { ino := ino, size := n, blocks := (n + 511) / 512,
             kind := .regularFile, perm := mode.getD 0o644, nlink := 1,
             uid := uid.getD 501, gid := gid.getD 20 }) := by
    simp only [setattr, hpath, hfold, hnid, hn0]
    rw [hbytes, utf8Lossy_of_valid _ hvt]
    rw [hupd]
    dsimp only
    rw [htlen]
  refine ⟨?_, by rw [hs]⟩
  rw [hs]
  exact hupd

/-- C6 counterexample: truncating the two-byte character at size 1 replies
with size 3 (the lossy replacement), not 1, and stores the replacement
bytes rather than the first byte. -/
theorem claim6_counterexample :
    (setattr accentExample 2 none none none (some 1)).2 =
      .ok { ino := 2, size := 3, blocks := 1, kind := .regularFile,
            perm := 0o644, nlink := 1, uid := 501, gid := 20 } ∧
    (3 : Nat) ≠ 1 ∧
    (getNoteById (setattr accentExample 2 none none none
        (some 1)).1.store "n1").map Note.content = some [0xEF, 0xBF, 0xBD] := by
  decide

/-- C6 witness. -/
theorem claim6_witness :
    getNoteById (setattr accentExample 2 none none none (some 4)).1.store "n1" =
      some ⟨"n1", "t", some "", [0xC3, 0xA9, 0, 0], "md", none, "u"⟩ ∧
    (setattr accentExample 2 none none none (some 4)).2 =
      .ok { ino := 2, size := 4, blocks := 1, kind := .regularFile,
            perm := 0o644, nlink := 1, uid := 501, gid := 20 } := by
  have h := claim6_setattr_size accentExample 2 4 none none none "/t.md" "n1"
    ⟨"n1", "t", some "", [0xC3, 0xA9], "md", none, "u"⟩
    (by decide) (by decide) (by decide) (by decide) (by decide)
    (by intro h; exact absurd h (by decide))
  exact ⟨h.1, h.2⟩

/-! ## Inode-table lemmas (towards C7/C8) -/

theorem mapErase_sublist {α β : Type} [DecidableEq α] (m : List (α × β)) (k : α) :
    List.Sublist (mapErase m k) m := by
  induction m with
  | nil => exact List.Sublist.refl _
  | cons e t ih =>
    obtain ⟨a, b⟩ := e
    by_cases h : a = k
    · simp only [mapErase, if_pos h]
      exact ih.cons _
    · simp only [mapErase, if_neg h]
      exact ih.cons₂ _

theorem mapLookup_ne_none_of_mem {α β : Type} [DecidableEq α]
    (m : List (α × β)) (a : α) (b : β) (h : (a, b) ∈ m) :
    mapLookup m a ≠ none := by
  induction m with
  | nil => cases h
  | cons e t ih =>
    obtain ⟨x, y⟩ := e
    by_cases hx : x = a
    · simp [mapLookup, hx]
    · simp only [mapLookup, if_neg hx]
      rcases List.mem_cons.mp h with h1 | h2
      · injection h1 with h1a h1b
        exact absurd h1a.symm hx
      · exact ih h2

theorem mapLookup_some_mem {α β : Type} [DecidableEq α]
    (m : List (α × β)) (a : α) (b : β) (h : mapLookup m a = some b) :
    (a, b) ∈ m := by
  induction m with
  | nil => cases h
  | cons e t ih =>
    obtain ⟨x, y⟩ := e
    by_cases hx : x = a
    · simp only [mapLookup, if_pos hx] at h
      injection h with h1
      rw [← hx, ← h1]
      exact List.mem_cons_self _ _
    · simp only [mapLookup, if_neg hx] at h
      exact List.mem_cons_of_mem _ (ih h)

theorem mapLookup_eq_some_of_mem {α β : Type} [DecidableEq α]
    (m : List (α × β)) (hk : (m.map (·.1)).Nodup) (a : α) (b : β)
    (h : (a, b) ∈ m) : mapLookup m a = some b := by
  induction m with
  | nil => cases h
  | cons e t ih =>
    obtain ⟨x, y⟩ := e
    simp only [List.map_cons, List.nodup_cons] at hk
    rcases List.mem_cons.mp h with h1 | h2
    · injection h1 with h1a h1b
      subst h1a; subst h1b
      simp [mapLookup]
    · have hxa : ¬ x = a := by
        intro hxe
        subst hxe
        exact hk.1 (List.mem_map.mpr ⟨(x, b), h2, rfl⟩)
      simp only [mapLookup, if_neg hxa]
      exact ih hk.2 h2

theorem find?_proj_eq_some {α β : Type} [DecidableEq β]
    (l : List α) (f : α → β) (hnd : (l.map f).Nodup) (x : α) (hx : x ∈ l) :
    l.find? (fun u => decide (f u = f x)) = some x := by
  induction l with
  | nil => cases hx
  | cons a t ih =>
    simp only [List.map_cons, List.nodup_cons] at hnd
    rcases List.mem_cons.mp hx with h1 | h2
    · subst h1
      rw [List.find?_cons_of_pos _ (by simp)]
    · have hne : ¬ (f a = f x) := by
        intro he
        exact hnd.1 (he ▸ List.mem_map.mpr ⟨x, h2, rfl⟩)
      rw [List.find?_cons_of_neg _ (by simpa using hne)]
      exact ih hnd.2 h2

theorem isPrefixOf_exists {α : Type} [DecidableEq α] (l₁ l₂ : List α)
    (h : l₁.isPrefixOf l₂ = true) : ∃ t, l₂ = l₁ ++ t := by
  induction l₁ generalizing l₂ with
  | nil => exact ⟨l₂, rfl⟩
  | cons a t ih =>
    cases l₂ with
    | nil => simp [List.isPrefixOf] at h
    | cons b t₂ =>
      simp only [List.isPrefixOf, Bool.and_eq_true, beq_iff_eq] at h
      obtain ⟨he, h2⟩ := h
      subst he
      obtain ⟨r, hr⟩ := ih t₂ h2
      exact ⟨r, by rw [hr]; rfl⟩

theorem strData_append (a b : String) : (a ++ b).data = a.data ++ b.data := rfl

theorem strEq_of_data (a b : String) (h : a.data = b.data) : a = b := by
  cases a
  cases b
  exact congrArg String.mk (by simpa using h)

/-- A path in the subtree of `old` is `old` itself or `old` followed by a
`/`-headed suffix. -/
theorem inSubtree_cases (old p : String) (h : inSubtreeOf old p = true) :
    p = old ∨ ∃ t, p.data = old.data ++ '/' :: t := by
  unfold inSubtreeOf at h
  rcases Bool.or_eq_true_iff.mp h with h1 | h2
  · exact Or.inl (of_decide_eq_true h1)
  · unfold strStartsWith at h2
    obtain ⟨t, ht⟩ := isPrefixOf_exists _ _ h2
    refine Or.inr ⟨t, ?_⟩
    rw [ht, strData_append, show ("/" : String).data = ['/'] from rfl,
        List.append_assoc]
    rfl

theorem rewriteSubtreePath_data (old new p : String) (hne : ¬ p = old) :
    (rewriteSubtreePath old new p).data =
      new.data ++ p.data.drop old.data.length := by
  unfold rewriteSubtreePath
  rw [if_neg hne, strData_append]
  rfl

/-- On the subtree of `old`, the `replacen` rewrite is injective. -/
theorem rewriteSubtreePath_inj (old new p q : String)
    (hp : inSubtreeOf old p = true) (hq : inSubtreeOf old q = true)
    (h : rewriteSubtreePath old new p = rewriteSubtreePath old new q) :
    p = q := by
  have hstrict : ∀ r : String, (∃ t, r.data = old.data ++ '/' :: t) → ¬ r = old := by
    rintro r ⟨t, ht⟩ he
    subst he
    have := congrArg List.length ht
    simp at this
  have hdrop : ∀ (r : String) (t : List Char), r.data = old.data ++ '/' :: t →
      r.data.drop old.data.length = '/' :: t := by
    intro r t ht
    rw [ht]
    exact List.drop_left _ _
  rcases inSubtree_cases old p hp with hp0 | ⟨tp, htp⟩ <;>
    rcases inSubtree_cases old q hq with hq0 | ⟨tq, htq⟩
  · rw [hp0, hq0]
  · exfalso
    rw [hp0] at h
    unfold rewriteSubtreePath at h
    rw [if_pos rfl, if_neg (hstrict q ⟨tq, htq⟩)] at h
    have hd := congrArg String.data h
    rw [strData_append] at hd
    have hdq : (strDrop q (strLen old)).data = '/' :: tq := hdrop q tq htq
    rw [hdq] at hd
    have := congrArg List.length hd
    simp at this
  · exfalso
    rw [hq0] at h
    unfold rewriteSubtreePath at h
    rw [if_pos rfl, if_neg (hstrict p ⟨tp, htp⟩)] at h
    have hd := congrArg String.data h
    rw [strData_append] at hd
    have hdp : (strDrop p (strLen old)).data = '/' :: tp := hdrop p tp htp
    rw [hdp] at hd
    have := congrArg List.length hd
    simp at this
  · have hd := congrArg String.data h
    rw [rewriteSubtreePath_data old new p (hstrict p ⟨tp, htp⟩),
        rewriteSubtreePath_data old new q (hstrict q ⟨tq, htq⟩)] at hd
    have hd2 := congrArg (List.drop new.data.length) hd
    rw [List.drop_left, List.drop_left] at hd2
    apply strEq_of_data
    rw [htp, htq, ← hdrop p tp htp, ← hdrop q tq htq, hd2]

theorem foldl_renameStep_nextInode (U : List (String × String × Nat))
    (acc : InodeTable) : (U.foldl renameStep acc).nextInode = acc.nextInode := by
  induction U generalizing acc with
  | nil => rfl
  | cons u t ih => rw [List.foldl_cons, ih]; rfl

/-- Forward-map lookup after the rename loop, assuming the rewritten paths
are pairwise distinct, absent from the starting map, and distinct from
every old path being rewritten. -/
theorem foldl_renameStep_fwd (U : List (String × String × Nat))
    (acc : InodeTable) (q : String)
    (hnews : (U.map (fun u => u.2.1)).Nodup)
    (hfresh : ∀ u ∈ U, mapLookup acc.inodeMap u.2.1 = none)
    (hsep : ∀ u ∈ U, ∀ v ∈ U, u.2.1 ≠ v.1) :
    mapLookup (U.foldl renameStep acc).inodeMap q =
      match U.find? (fun u => decide (u.2.1 = q)) with
      | some u => some u.2.2
      | none =>
        if U.any (fun u => decide (u.1 = q)) then none
        else mapLookup acc.inodeMap q := by
  induction U generalizing acc with
  | nil => rfl
  | cons u t ih =>
    obtain ⟨p, np, i⟩ := u
    rw [List.foldl_cons]
    simp only [List.map_cons, List.nodup_cons] at hnews
    have hfresh' : ∀ v ∈ t,
        mapLookup (renameStep acc (p, np, i)).inodeMap v.2.1 = none := by
      intro v hv
      show mapLookup (mapInsert (mapErase acc.inodeMap p) np i) v.2.1 = none
      have h1 : v.2.1 ≠ np := by
        intro he
        exact hnews.1 (he ▸ List.mem_map.mpr ⟨v, hv, rfl⟩)
      have h2 : v.2.1 ≠ p :=
        hsep v (List.mem_cons_of_mem _ hv) (p, np, i) (List.mem_cons_self _ _)
      rw [mapLookup_mapInsert_ne _ _ _ _ h1, mapLookup_mapErase_ne _ _ _ h2]
      exact hfresh v (List.mem_cons_of_mem _ hv)
    have hsep' : ∀ a ∈ t, ∀ b ∈ t, a.2.1 ≠ b.1 := fun a ha b hb =>
      hsep a (List.mem_cons_of_mem _ ha) b (List.mem_cons_of_mem _ hb)
    rw [ih (renameStep acc (p, np, i)) hnews.2 hfresh' hsep']
    by_cases hq : np = q
    · subst hq
      rw [List.find?_cons_of_pos _ (by simp)]
      have hfind : t.find? (fun u => decide (u.2.1 = np)) = none := by
        rw [List.find?_eq_none]
        intro v hv
        simp only [decide_eq_true_eq]
        intro he
        exact hnews.1 (he ▸ List.mem_map.mpr ⟨v, hv, rfl⟩)
      rw [hfind]
      have hany : ¬ t.any (fun u => decide (u.1 = np)) = true := by
        rw [List.any_eq_true]
        rintro ⟨v, hv, hvp⟩
        simp only [decide_eq_true_eq] at hvp
        exact hsep (p, np, i) (List.mem_cons_self _ _) v
          (List.mem_cons_of_mem _ hv) hvp.symm
      rw [if_neg hany]
      show mapLookup (mapInsert (mapErase acc.inodeMap p) np i) np = some i
      exact mapLookup_mapInsert_self _ _ _
    · rw [List.find?_cons_of_neg _ (by simpa using hq)]
      cases hfind : t.find? (fun u => decide (u.2.1 = q)) with
      | some v => rfl
      | none =>
        have hnp : p ≠ np :=
          fun he => hsep (p, np, i) (List.mem_cons_self _ _) (p, np, i)
            (List.mem_cons_self _ _) he.symm
        by_cases hpq : p = q
        · subst hpq
          have hca : ((p, np, i) :: t).any (fun u => decide (u.1 = p)) = true := by
            simp [List.any_cons]
          rw [if_pos hca]
          by_cases hta : t.any (fun u => decide (u.1 = p)) = true
          · rw [if_pos hta]
          · rw [if_neg hta]
            show mapLookup (mapInsert (mapErase acc.inodeMap p) np i) p = none
            rw [mapLookup_mapInsert_ne _ _ _ _ hnp, mapLookup_mapErase_self]
        · by_cases hta : t.any (fun u => decide (u.1 = q)) = true
          · have hca : ((p, np, i) :: t).any (fun u => decide (u.1 = q)) = true := by
              simp [List.any_cons, hta]
            rw [if_pos hta, if_pos hca]
          · have hca : ¬ ((p, np, i) :: t).any (fun u => decide (u.1 = q)) = true := by
              simp [List.any_cons, hpq, hta]
            rw [if_neg hta, if_neg hca]
            show mapLookup (mapInsert (mapErase acc.inodeMap p) np i) q =
              mapLookup acc.inodeMap q
            rw [mapLookup_mapInsert_ne _ _ _ _ (fun he => hq he.symm),
                mapLookup_mapErase_ne _ _ _ (fun he => hpq he.symm)]

/-- Reverse-map lookup after the rename loop, assuming the rewritten
inodes are pairwise distinct. -/
theorem foldl_renameStep_rev (U : List (String × String × Nat))
    (acc : InodeTable) (j : Nat)
    (hinos : (U.map (fun u => u.2.2)).Nodup) :
    mapLookup (U.foldl renameStep acc).reverseInodeMap j =
      match U.find? (fun u => decide (u.2.2 = j)) with
      | some u => some u.2.1
      | none => mapLookup acc.reverseInodeMap j := by
  induction U generalizing acc with
  | nil => rfl
  | cons u t ih =>
    obtain ⟨p, np, i⟩ := u
    rw [List.foldl_cons]
    simp only [List.map_cons, List.nodup_cons] at hinos
    rw [ih (renameStep acc (p, np, i)) hinos.2]
    by_cases hij : i = j
    · subst hij
      rw [List.find?_cons_of_pos _ (by simp)]
      have hfind : t.find? (fun u => decide (u.2.2 = i)) = none := by
        rw [List.find?_eq_none]
        intro v hv
        simp only [decide_eq_true_eq]
        intro he
        exact hinos.1 (he ▸ List.mem_map.mpr ⟨v, hv, rfl⟩)
      rw [hfind]
      show mapLookup (mapInsert acc.reverseInodeMap i np) i = some np
      exact mapLookup_mapInsert_self _ _ _
    · rw [List.find?_cons_of_neg _ (by simpa using hij)]
      cases hfind : t.find? (fun u => decide (u.2.2 = j)) with
      | some v => rfl
      | none =>
        show mapLookup (mapInsert acc.reverseInodeMap i np) j =
          mapLookup acc.reverseInodeMap j
        exact mapLookup_mapInsert_ne _ _ _ _ (fun he => hij he.symm)

theorem mem_pathsToUpdate (t : InodeTable) (old new : String)
    (u : String × String × Nat) :
    u ∈ pathsToUpdate t old new ↔
      ∃ e, e ∈ t.inodeMap ∧ inSubtreeOf old e.1 = true ∧
        u = (e.1, rewriteSubtreePath old new e.1, e.2) := by
  unfold pathsToUpdate
  rw [List.mem_map]
  constructor
  · rintro ⟨e, he, rfl⟩
    rw [List.mem_filter] at he
    exact ⟨e, he.1, he.2, rfl⟩
  · rintro ⟨e, he, hs, rfl⟩
    exact ⟨e, List.mem_filter.mpr ⟨he, hs⟩, rfl⟩

/-- Every triple collected by `update_inode_mappings` records an entry of
the map (path, rewritten path, inode), with the path in the subtree. -/
theorem pathsToUpdate_elem (t : InodeTable) (old new : String)
    (hkeys : (t.inodeMap.map (·.1)).Nodup)
    (u : String × String × Nat) (hu : u ∈ pathsToUpdate t old new) :
    mapLookup t.inodeMap u.1 = some u.2.2 ∧ inSubtreeOf old u.1 = true ∧
      u.2.1 = rewriteSubtreePath old new u.1 := by
  obtain ⟨e, he, hs, rfl⟩ := (mem_pathsToUpdate t old new u).mp hu
  obtain ⟨a, b⟩ := e
  exact ⟨mapLookup_eq_some_of_mem _ hkeys a b he, hs, rfl⟩

theorem pathsToUpdate_olds_nodup (t : InodeTable) (old new : String)
    (hkeys : (t.inodeMap.map (·.1)).Nodup) :
    ((pathsToUpdate t old new).map (·.1)).Nodup := by
  have he : (pathsToUpdate t old new).map (·.1)
      = (t.inodeMap.filter (fun e => inSubtreeOf old e.1)).map (·.1) := by
    unfold pathsToUpdate
    rw [List.map_map]
    rfl
  rw [he]
  exact List.Nodup.sublist ((List.filter_sublist _).map _) hkeys

theorem pathsToUpdate_news_nodup (t : InodeTable) (old new : String)
    (hkeys : (t.inodeMap.map (·.1)).Nodup) :
    ((pathsToUpdate t old new).map (fun u => u.2.1)).Nodup := by
  have he : (pathsToUpdate t old new).map (fun u => u.2.1)
      = ((t.inodeMap.filter (fun e => inSubtreeOf old e.1)).map (·.1)).map
          (rewriteSubtreePath old new) := by
    unfold pathsToUpdate
    rw [List.map_map, List.map_map]
    rfl
  rw [he]
  apply List.Nodup.map_on
  · intro x hx y hy hxy
    rw [List.mem_map] at hx hy
    obtain ⟨ex, hex, rfl⟩ := hx
    obtain ⟨ey, hey, rfl⟩ := hy
    rw [List.mem_filter] at hex hey
    exact rewriteSubtreePath_inj old new _ _ hex.2 hey.2 hxy
  · exact List.Nodup.sublist ((List.filter_sublist _).map _) hkeys

theorem pathsToUpdate_inos_nodup (t : InodeTable) (old new : String)
    (hvals : (t.inodeMap.map (·.2)).Nodup) :
    ((pathsToUpdate t old new).map (fun u => u.2.2)).Nodup := by
  have he : (pathsToUpdate t old new).map (fun u => u.2.2)
      = (t.inodeMap.filter (fun e => inSubtreeOf old e.1)).map (·.2) := by
    unfold pathsToUpdate
    rw [List.map_map]
    rfl
  rw [he]
  exact List.Nodup.sublist ((List.filter_sublist _).map _) hvals

theorem pathsToUpdate_fresh (t : InodeTable) (old new : String)
    (hkeys : (t.inodeMap.map (·.1)).Nodup) (hnc : NoCollision t old new) :
    ∀ u ∈ pathsToUpdate t old new, mapLookup t.inodeMap u.2.1 = none := by
  intro u hu
  obtain ⟨hlook, hsub, hrew⟩ := pathsToUpdate_elem t old new hkeys u hu
  by_contra hne
  have h1 : mapLookup t.inodeMap u.1 ≠ none := by
    rw [hlook]; exact fun h => Option.noConfusion h
  exact hnc u.1 h1 hsub u.2.1 hne hrew.symm

theorem pathsToUpdate_sep (t : InodeTable) (old new : String)
    (hkeys : (t.inodeMap.map (·.1)).Nodup) (hnc : NoCollision t old new) :
    ∀ u ∈ pathsToUpdate t old new, ∀ v ∈ pathsToUpdate t old new,
      u.2.1 ≠ v.1 := by
  intro u hu v hv
  obtain ⟨hlu, hsu, hru⟩ := pathsToUpdate_elem t old new hkeys u hu
  obtain ⟨hlv, _, _⟩ := pathsToUpdate_elem t old new hkeys v hv
  have h1 : mapLookup t.inodeMap u.1 ≠ none := by
    rw [hlu]; exact fun h => Option.noConfusion h
  have h2 : mapLookup t.inodeMap v.1 ≠ none := by
    rw [hlv]; exact fun h => Option.noConfusion h
  rw [hru]
  exact hnc u.1 h1 hsu v.1 h2

theorem pathsToUpdate_inos_nodup_of_bij (t : InodeTable) (old new : String)
    (hkeys : (t.inodeMap.map (·.1)).Nodup)
    (hbij : ∀ p i, mapLookup t.inodeMap p = some i →
      mapLookup t.reverseInodeMap i = some p) :
    ((pathsToUpdate t old new).map (fun u => u.2.2)).Nodup := by
  have he : (pathsToUpdate t old new).map (fun u => u.2.2)
      = (t.inodeMap.filter (fun e => inSubtreeOf old e.1)).map (·.2) := by
    unfold pathsToUpdate
    rw [List.map_map]
    rfl
  rw [he]
  apply List.Nodup.map_on
  · intro x hx y hy hxy
    rw [List.mem_filter] at hx hy
    obtain ⟨a, b⟩ := x
    obtain ⟨c, d⟩ := y
    dsimp only at hxy
    subst hxy
    have r1 := hbij a b (mapLookup_eq_some_of_mem _ hkeys a b hx.1)
    have r2 := hbij c b (mapLookup_eq_some_of_mem _ hkeys c b hy.1)
    rw [r1] at r2
    injection r2 with hac
    rw [hac]
  · exact List.Nodup.sublist (List.filter_sublist _) (List.Nodup.of_map _ hkeys)

/-- After `update_inode_mappings`, a subtree entry's rewritten path maps to
its old inode. -/
theorem updateInodeMappings_fwd_subtree (t : InodeTable) (old new : String)
    (hkeys : (t.inodeMap.map (·.1)).Nodup) (hnc : NoCollision t old new)
    (p : String) (i : Nat) (hp : mapLookup t.inodeMap p = some i)
    (hs : inSubtreeOf old p = true) :
    mapLookup (updateInodeMappings t old new).inodeMap
      (rewriteSubtreePath old new p) = some i := by
  have hmem : (p, rewriteSubtreePath old new p, i) ∈ pathsToUpdate t old new :=
    (mem_pathsToUpdate t old new _).mpr
      ⟨(p, i), mapLookup_some_mem _ _ _ hp, hs, rfl⟩
  unfold updateInodeMappings
  rw [foldl_renameStep_fwd _ _ _ (pathsToUpdate_news_nodup t old new hkeys)
      (pathsToUpdate_fresh t old new hkeys hnc)
      (pathsToUpdate_sep t old new hkeys hnc)]
  have hf : (pathsToUpdate t old new).find?
      (fun u => decide (u.2.1 = rewriteSubtreePath old new p)) =
      some (p, rewriteSubtreePath old new p, i) :=
    find?_proj_eq_some _ (fun u => u.2.1)
      (pathsToUpdate_news_nodup t old new hkeys) _ hmem
  rw [hf]

/-- After `update_inode_mappings`, a subtree entry's inode reverse-maps to
the rewritten path. -/
theorem updateInodeMappings_rev_subtree (t : InodeTable) (old new : String)
    (hinos : ((pathsToUpdate t old new).map (fun u => u.2.2)).Nodup)
    (p : String) (i : Nat) (hp : mapLookup t.inodeMap p = some i)
    (hs : inSubtreeOf old p = true) :
    mapLookup (updateInodeMappings t old new).reverseInodeMap i =
      some (rewriteSubtreePath old new p) := by
  have hmem : (p, rewriteSubtreePath old new p, i) ∈ pathsToUpdate t old new :=
    (mem_pathsToUpdate t old new _).mpr
      ⟨(p, i), mapLookup_some_mem _ _ _ hp, hs, rfl⟩
  unfold updateInodeMappings
  rw [foldl_renameStep_rev _ _ _ hinos]
  have hf : (pathsToUpdate t old new).find? (fun u => decide (u.2.2 = i)) =
      some (p, rewriteSubtreePath old new p, i) :=
    find?_proj_eq_some _ (fun u => u.2.2) hinos _ hmem
  rw [hf]

/-- After `update_inode_mappings`, the old key of a subtree entry is gone. -/
theorem updateInodeMappings_fwd_old_none (t : InodeTable) (old new : String)
    (hkeys : (t.inodeMap.map (·.1)).Nodup) (hnc : NoCollision t old new)
    (p : String) (hp : mapLookup t.inodeMap p ≠ none)
    (hs : inSubtreeOf old p = true) :
    mapLookup (updateInodeMappings t old new).inodeMap p = none := by
  cases hlk : mapLookup t.inodeMap p with
  | none => exact absurd hlk hp
  | some i =>
    have hmem : (p, rewriteSubtreePath old new p, i) ∈ pathsToUpdate t old new :=
      (mem_pathsToUpdate t old new _).mpr
        ⟨(p, i), mapLookup_some_mem _ _ _ hlk, hs, rfl⟩
    unfold updateInodeMappings
    rw [foldl_renameStep_fwd _ _ _ (pathsToUpdate_news_nodup t old new hkeys)
        (pathsToUpdate_fresh t old new hkeys hnc)
        (pathsToUpdate_sep t old new hkeys hnc)]
    have hfind : (pathsToUpdate t old new).find?
        (fun u => decide (u.2.1 = p)) = none := by
      rw [List.find?_eq_none]
      intro v hv
      simp only [decide_eq_true_eq]
      intro he
      have hfr := pathsToUpdate_fresh t old new hkeys hnc v hv
      rw [he] at hfr
      exact hp hfr
    rw [hfind]
    have hany : (pathsToUpdate t old new).any (fun u => decide (u.1 = p)) = true :=
      List.any_eq_true.mpr ⟨(p, rewriteSubtreePath old new p, i), hmem, by simp⟩
    rw [if_pos hany]

/-- After `update_inode_mappings`, a path outside the subtree that is hit
by no rewritten path keeps its old binding. -/
theorem updateInodeMappings_fwd_other (t : InodeTable) (old new : String)
    (hkeys : (t.inodeMap.map (·.1)).Nodup) (hnc : NoCollision t old new)
    (q : String) (hq : inSubtreeOf old q = false)
    (havoid : ∀ p, mapLookup t.inodeMap p ≠ none → inSubtreeOf old p = true →
      rewriteSubtreePath old new p ≠ q) :
    mapLookup (updateInodeMappings t old new).inodeMap q =
      mapLookup t.inodeMap q := by
  unfold updateInodeMappings
  rw [foldl_renameStep_fwd _ _ _ (pathsToUpdate_news_nodup t old new hkeys)
      (pathsToUpdate_fresh t old new hkeys hnc)
      (pathsToUpdate_sep t old new hkeys hnc)]
  have hfind : (pathsToUpdate t old new).find?
      (fun u => decide (u.2.1 = q)) = none := by
    rw [List.find?_eq_none]
    intro v hv
    simp only [decide_eq_true_eq]
    intro he
    obtain ⟨hlv, hsv, hrv⟩ := pathsToUpdate_elem t old new hkeys v hv
    have h1 : mapLookup t.inodeMap v.1 ≠ none := by
      rw [hlv]; exact fun h => Option.noConfusion h
    exact havoid v.1 h1 hsv (by rw [← hrv]; exact he)
  rw [hfind]
  have hany : ¬ (pathsToUpdate t old new).any (fun u => decide (u.1 = q)) = true := by
    rw [List.any_eq_true]
    rintro ⟨v, hv, hvq⟩
    simp only [decide_eq_true_eq] at hvq
    obtain ⟨_, hsv, _⟩ := pathsToUpdate_elem t old new hkeys v hv
    rw [hvq, hq] at hsv
    cases hsv
  rw [if_neg hany]

/-- After `update_inode_mappings`, an inode owned by no subtree entry keeps
its reverse binding. -/
theorem updateInodeMappings_rev_other (t : InodeTable) (old new : String)
    (hkeys : (t.inodeMap.map (·.1)).Nodup)
    (hinos : ((pathsToUpdate t old new).map (fun u => u.2.2)).Nodup)
    (j : Nat)
    (hj : ∀ p, mapLookup t.inodeMap p = some j → inSubtreeOf old p = false) :
    mapLookup (updateInodeMappings t old new).reverseInodeMap j =
      mapLookup t.reverseInodeMap j := by
  unfold updateInodeMappings
  rw [foldl_renameStep_rev _ _ _ hinos]
  have hfind : (pathsToUpdate t old new).find?
      (fun u => decide (u.2.2 = j)) = none := by
    rw [List.find?_eq_none]
    intro v hv
    simp only [decide_eq_true_eq]
    intro he
    obtain ⟨hlv, hsv, _⟩ := pathsToUpdate_elem t old new hkeys v hv
    rw [he] at hlv
    rw [hj v.1 hlv] at hsv
    cases hsv
  rw [hfind]

theorem mem_keys_of_mapLookup_ne_none {α β : Type} [DecidableEq α]
    (m : List (α × β)) (a : α) (h : mapLookup m a ≠ none) :
    a ∈ m.map (·.1) := by
  induction m with
  | nil => exact absurd rfl h
  | cons e t ih =>
    obtain ⟨x, y⟩ := e
    by_cases hx : x = a
    · subst hx
      exact List.mem_cons_self _ _
    · simp only [mapLookup, if_neg hx] at h
      exact List.mem_cons_of_mem _ (ih h)

/-- A successful `rename` updates the table by `update_inode_mappings` on
the joined old and new paths (both the folder and the note branch do). -/
theorem rename_ok_table (st st' : FsState) (parent newParent : Nat)
    (name newName parentPath newParentPath : String)
    (hpp : mapLookup st.table.reverseInodeMap parent = some parentPath)
    (hnpp : mapLookup st.table.reverseInodeMap newParent = some newParentPath)
    (hr : rename st parent name newParent newName = (st', Except.ok ())) :
    st'.table = updateInodeMappings st.table
      (if parentPath = "/" then "/" ++ name else parentPath ++ "/" ++ name)
      (if newParentPath = "/" then "/" ++ newName
       else newParentPath ++ "/" ++ newName) := by
  simp only [rename, hpp, hnpp] at hr
  repeat' split at hr
  all_goals (rw [Prod.mk.injEq] at hr; obtain ⟨h1, h2⟩ := hr)
  all_goals first
    | exact Except.noConfusion h2
    | (rw [← h1]; split_ifs <;> simp_all)

/-! ## Claim C7 — rename rewrites the subtree of the Inode Table -/

/-- C7 (amended): after a successful `rename`, provided the table's keys
and inode values are duplicate-free and no rewritten subtree path collides
with an existing key (`NoCollision`), every entry whose path equals
`old_path` or starts with `old_path + "/"` is rewritten (forward and
reverse) with its inode preserved and its old key removed, and every other
binding — any path outside the subtree not hit by a rewrite, and any inode
owned by no subtree entry — is unchanged.  (Without `NoCollision`, a
rewritten path falling on an existing key silently overwrites that entry;
see the counterexample.) -/
theorem claim7_rename_subtree (st st' : FsState) (parent newParent : Nat)
    (name newName parentPath newParentPath oldPath newPath : String)
    (hpp : mapLookup st.table.reverseInodeMap parent = some parentPath)
    (hnpp : mapLookup st.table.reverseInodeMap newParent = some newParentPath)
    (hO : oldPath = if parentPath = "/" then "/" ++ name
      else parentPath ++ "/" ++ name)
    (hN : newPath = if newParentPath = "/" then "/" ++ newName
      else newParentPath ++ "/" ++ newName)
    (hkeys : (st.table.inodeMap.map (·.1)).Nodup)
    (hvals : (st.table.inodeMap.map (·.2)).Nodup)
    (hnc : NoCollision st.table oldPath newPath)
    (hr : rename st parent name newParent newName = (st', Except.ok ())) :
    (∀ p i, mapLookup st.table.inodeMap p = some i →
      inSubtreeOf oldPath p = true →
      mapLookup st'.table.inodeMap (rewriteSubtreePath oldPath newPath p) =
        some i ∧
      mapLookup st'.table.reverseInodeMap i =
        some (rewriteSubtreePath oldPath newPath p) ∧
      mapLookup st'.table.inodeMap p = none) ∧
    (∀ q, inSubtreeOf oldPath q = false →
      (∀ p, mapLookup st.table.inodeMap p ≠ none →
        inSubtreeOf oldPath p = true → rewriteSubtreePath oldPath newPath p ≠ q) →
      mapLookup st'.table.inodeMap q = mapLookup st.table.inodeMap q) ∧
    (∀ j, (∀ p, mapLookup st.table.inodeMap p = some j →
        inSubtreeOf oldPath p = false) →
      mapLookup st'.table.reverseInodeMap j =
        mapLookup st.table.reverseInodeMap j) := by
  have hT : st'.table = updateInodeMappings st.table oldPath newPath := by
    rw [hO, hN]
    exact rename_ok_table st st' parent newParent name newName parentPath
      newParentPath hpp hnpp hr
  have hinos := pathsToUpdate_inos_nodup st.table oldPath newPath hvals
  rw [hT]
  refine ⟨?_, ?_, ?_⟩
  · intro p i hp hs
    refine ⟨updateInodeMappings_fwd_subtree _ _ _ hkeys hnc p i hp hs,
            updateInodeMappings_rev_subtree _ _ _ hinos p i hp hs,
            updateInodeMappings_fwd_old_none _ _ _ hkeys hnc p
              (by rw [hp]; exact fun h => Option.noConfusion h) hs⟩
  · intro q hq havoid
    exact updateInodeMappings_fwd_other _ _ _ hkeys hnc q hq havoid
  · intro j hj
    exact updateInodeMappings_rev_other _ _ _ hkeys hinos j hj

/-- C7 counterexample: renaming the note `x.md` onto the path `/.q.swp`,
which the table already maps to inode 2 (a shim entry), succeeds yet
clobbers that unrelated entry: `/.q.swp` afterwards maps to inode 3, not 2
— so "no other entry changes" fails without the no-collision proviso. -/
theorem claim7_counterexample :
    (rename renameCollisionExample 1 "x.md" 1 ".q.swp").2 = Except.ok () ∧
    inSubtreeOf "/x.md" "/.q.swp" = false ∧
    mapLookup renameCollisionExample.table.inodeMap "/.q.swp" = some 2 ∧
    mapLookup (rename renameCollisionExample 1 "x.md" 1 ".q.swp").1.table.inodeMap
      "/.q.swp" = some 3 := by
  decide

/-- C7 witness: the collision-free rename of folder `a` to `b` rewrites the
subtree entry `/a/n.md` to `/b/n.md` keeping inode 3 and erases the old
key. -/
theorem claim7_witness :
    mapLookup (rename renameGoodExample 1 "a" 1 "b").1.table.inodeMap
      (rewriteSubtreePath "/a" "/b" "/a/n.md") = some 3 ∧
    mapLookup (rename renameGoodExample 1 "a" 1 "b").1.table.inodeMap
      "/a/n.md" = none := by
  have h := claim7_rename_subtree renameGoodExample
      (rename renameGoodExample 1 "a" 1 "b").1 1 1 "a" "b" "/" "/" "/a" "/b"
      (by decide) (by decide) (by decide) (by decide) (by decide) (by decide)
      (by
        intro p hp hs q hq hre
        have hpk : p = "/" ∨ p = "/a" ∨ p = "/a/n.md" := by
          simpa [renameGoodExample] using
            mem_keys_of_mapLookup_ne_none _ p hp
        have hqk : q = "/" ∨ q = "/a" ∨ q = "/a/n.md" := by
          simpa [renameGoodExample] using
            mem_keys_of_mapLookup_ne_none _ q hq
        rcases hpk with rfl | rfl | rfl <;> rcases hqk with rfl | rfl | rfl <;>
          (revert hs hre; decide))
      (by decide)
  obtain ⟨ha, -, -⟩ := h
  have h2 := ha "/a/n.md" 3 (by decide) (by decide)
  exact ⟨h2.1, h2.2.2⟩

/-! ## Claim C8 — Inode Table invariants over traces -/

theorem mapErase_of_lookup_none {α β : Type} [DecidableEq α]
    (m : List (α × β)) (k : α) (h : mapLookup m k = none) :
    mapErase m k = m := by
  induction m with
  | nil => rfl
  | cons e t ih =>
    obtain ⟨a, b⟩ := e
    by_cases ha : a = k
    · simp only [mapLookup, if_pos ha] at h
      cases h
    · simp only [mapLookup, if_neg ha] at h
      simp only [mapErase, if_neg ha, ih h]

theorem not_mem_keys_of_lookup_none {α β : Type} [DecidableEq α]
    (m : List (α × β)) (k : α) (h : mapLookup m k = none) :
    k ∉ m.map (·.1) := by
  intro hmem
  rw [List.mem_map] at hmem
  obtain ⟨⟨a, b⟩, he, hfst⟩ := hmem
  dsimp only at hfst
  subst hfst
  exact mapLookup_ne_none_of_mem m a b he h

theorem key_not_mem_mapErase_keys {α β : Type} [DecidableEq α]
    (m : List (α × β)) (k : α) : k ∉ (mapErase m k).map (·.1) :=
  not_mem_keys_of_lookup_none _ _ (mapLookup_mapErase_self m k)

theorem mapInsert_keys_nodup {α β : Type} [DecidableEq α]
    (m : List (α × β)) (k : α) (v : β) (h : (m.map (·.1)).Nodup) :
    ((mapInsert m k v).map (·.1)).Nodup := by
  simp only [mapInsert, List.map_cons]
  rw [List.nodup_cons]
  exact ⟨key_not_mem_mapErase_keys m k,
    List.Nodup.sublist ((mapErase_sublist m k).map _) h⟩

theorem foldl_renameStep_fwdKeys (U : List (String × String × Nat))
    (acc : InodeTable) (h : (acc.inodeMap.map (·.1)).Nodup) :
    ((U.foldl renameStep acc).inodeMap.map (·.1)).Nodup := by
  induction U generalizing acc with
  | nil => exact h
  | cons u t ih =>
    rw [List.foldl_cons]
    exact ih _ (mapInsert_keys_nodup _ _ _
      (List.Nodup.sublist ((mapErase_sublist _ _).map _) h))

theorem tableInv_init : TableInv initTable := by
  refine ⟨by decide, ?_, ?_, ?_, by decide⟩
  · intro p i
    constructor
    · intro h
      by_cases hp : "/" = p
      · simp only [initTable, mapLookup, if_pos hp] at h
        injection h with hi
        rw [← hp, ← hi]
        decide
      · simp only [initTable, mapLookup, if_neg hp] at h
        cases h
    · intro h
      by_cases hi : (1 : Nat) = i
      · simp only [initTable, mapLookup, if_pos hi] at h
        injection h with hp
        rw [← hp, ← hi]
        decide
      · simp only [initTable, mapLookup, if_neg hi] at h
        cases h
  · intro p h
    by_cases hp : "/" = p
    · exact hp.symm
    · simp only [initTable, mapLookup, if_neg hp] at h
      cases h
  · intro p i h
    by_cases hp : "/" = p
    · simp only [initTable, mapLookup, if_pos hp] at h
      injection h with hi
      rw [← hi]
      decide
    · simp only [initTable, mapLookup, if_neg hp] at h
      cases h

theorem tableInv_getOrCreate (t : InodeTable) (p : String) (h : TableInv t) :
    TableInv (getOrCreateInode t p).2 := by
  cases hlk : mapLookup t.inodeMap p with
  | some i => simpa [getOrCreateInode, hlk] using h
  | none =>
    have hrevnone : mapLookup t.reverseInodeMap t.nextInode = none := by
      cases hr : mapLookup t.reverseInodeMap t.nextInode with
      | none => rfl
      | some q =>
        have hb := h.bound q t.nextInode ((h.bij q t.nextInode).mpr hr)
        omega
    simp only [getOrCreateInode, hlk]
    refine ⟨?_, ?_, ?_, ?_, ?_⟩
    · exact mapInsert_keys_nodup _ _ _ h.fwdKeys
    · intro q j
      constructor
      · intro hq
        by_cases hpq : p = q
        · subst hpq
          rw [mapLookup_mapInsert_self] at hq
          injection hq with hj
          subst hj
          show mapLookup (mapInsert t.reverseInodeMap t.nextInode p) t.nextInode =
            some p
          exact mapLookup_mapInsert_self _ _ _
        · rw [mapLookup_mapInsert_ne _ _ _ _ (fun he => hpq he.symm)] at hq
          have hjb := h.bound q j hq
          have hjne : j ≠ t.nextInode := by omega
          show mapLookup (mapInsert t.reverseInodeMap t.nextInode p) j = some q
          rw [mapLookup_mapInsert_ne _ _ _ _ hjne]
          exact (h.bij q j).mp hq
      · intro hq
        by_cases hij : j = t.nextInode
        · subst hij
          rw [mapLookup_mapInsert_self] at hq
          injection hq with hqe
          subst hqe
          show mapLookup (mapInsert t.inodeMap p t.nextInode) p = some t.nextInode
          exact mapLookup_mapInsert_self _ _ _
        · rw [mapLookup_mapInsert_ne _ _ _ _ hij] at hq
          have hfq := (h.bij q j).mpr hq
          have hpq : p ≠ q := by
            intro he
            rw [← he, hlk] at hfq
            cases hfq
          show mapLookup (mapInsert t.inodeMap p t.nextInode) q = some j
          rw [mapLookup_mapInsert_ne _ _ _ _ (fun he => hpq he.symm)]
          exact hfq
    · intro q hq
      by_cases hpq : p = q
      · subst hpq
        rw [mapLookup_mapInsert_self] at hq
        injection hq with h1
        have h2 := h.two
        omega
      · rw [mapLookup_mapInsert_ne _ _ _ _ (fun he => hpq he.symm)] at hq
        exact h.root q hq
    · intro q j hq
      show j < t.nextInode + 1
      by_cases hpq : p = q
      · subst hpq
        rw [mapLookup_mapInsert_self] at hq
        injection hq with hj
        omega
      · rw [mapLookup_mapInsert_ne _ _ _ _ (fun he => hpq he.symm)] at hq
        have hb := h.bound q j hq
        omega
    · show 2 ≤ t.nextInode + 1
      have h2 := h.two
      omega

theorem tableInv_remove (t : InodeTable) (p : String) (h : TableInv t) :
    TableInv (removeInodeFor t p) := by
  cases hlk : mapLookup t.inodeMap p with
  | none => simpa [removeInodeFor, hlk] using h
  | some i =>
    simp only [removeInodeFor, hlk]
    have hrev : mapLookup t.reverseInodeMap i = some p := (h.bij p i).mp hlk
    refine ⟨?_, ?_, ?_, ?_, ?_⟩
    · exact List.Nodup.sublist ((mapErase_sublist _ _).map _) h.fwdKeys
    · intro q j
      constructor
      · intro hq
        by_cases hpq : p = q
        · subst hpq
          rw [mapLookup_mapErase_self] at hq
          cases hq
        · rw [mapLookup_mapErase_ne _ _ _ (fun he => hpq he.symm)] at hq
          have hbij := (h.bij q j).mp hq
          have hij : j ≠ i := by
            intro he
            subst he
            have hpq2 := hrev.symm.trans hbij
            injection hpq2 with hpq3
            exact hpq hpq3
          show mapLookup (mapErase t.reverseInodeMap i) j = some q
          rw [mapLookup_mapErase_ne _ _ _ hij]
          exact hbij
      · intro hq
        by_cases hij : i = j
        · subst hij
          rw [mapLookup_mapErase_self] at hq
          cases hq
        · rw [mapLookup_mapErase_ne _ _ _ (fun he => hij he.symm)] at hq
          have hfq := (h.bij q j).mpr hq
          have hpq : p ≠ q := by
            intro he
            subst he
            have hij2 := hlk.symm.trans hfq
            injection hij2 with hij3
            exact hij hij3
          show mapLookup (mapErase t.inodeMap p) q = some j
          rw [mapLookup_mapErase_ne _ _ _ (fun he => hpq he.symm)]
          exact hfq
    · intro q hq
      by_cases hpq : p = q
      · subst hpq
        rw [mapLookup_mapErase_self] at hq
        cases hq
      · rw [mapLookup_mapErase_ne _ _ _ (fun he => hpq he.symm)] at hq
        exact h.root q hq
    · intro q j hq
      by_cases hpq : p = q
      · subst hpq
        rw [mapLookup_mapErase_self] at hq
        cases hq
      · rw [mapLookup_mapErase_ne _ _ _ (fun he => hpq he.symm)] at hq
        exact h.bound q j hq
    · exact h.two

theorem find?_pred_true {α : Type} (p : α → Bool) (l : List α) (a : α)
    (h : l.find? p = some a) : p a = true := List.find?_some h

theorem tableInv_rename (t : InodeTable) (o n : String) (h : TableInv t)
    (hroot : inSubtreeOf o "/" = false) (hnc : NoCollision t o n) :
    TableInv (updateInodeMappings t o n) := by
  have hkeys := h.fwdKeys
  have hinos : ((pathsToUpdate t o n).map (fun u => u.2.2)).Nodup :=
    pathsToUpdate_inos_nodup_of_bij t o n hkeys (fun p i hp => (h.bij p i).mp hp)
  have hnews := pathsToUpdate_news_nodup t o n hkeys
  have hfresh := pathsToUpdate_fresh t o n hkeys hnc
  have hsep := pathsToUpdate_sep t o n hkeys hnc
  have hmemf : ∀ u ∈ pathsToUpdate t o n,
      mapLookup t.inodeMap u.1 = some u.2.2 :=
    fun u hu => (pathsToUpdate_elem t o n hkeys u hu).1
  have hmems : ∀ u ∈ pathsToUpdate t o n, inSubtreeOf o u.1 = true :=
    fun u hu => (pathsToUpdate_elem t o n hkeys u hu).2.1
  have hF1 : ∀ q, mapLookup (updateInodeMappings t o n).inodeMap q =
      match (pathsToUpdate t o n).find? (fun u => decide (u.2.1 = q)) with
      | some u => some u.2.2
      | none =>
        if (pathsToUpdate t o n).any (fun u => decide (u.1 = q)) then none
        else mapLookup t.inodeMap q := by
    intro q
    unfold updateInodeMappings
    exact foldl_renameStep_fwd _ _ q hnews hfresh hsep
  have hF2 : ∀ j, mapLookup (updateInodeMappings t o n).reverseInodeMap j =
      match (pathsToUpdate t o n).find? (fun u => decide (u.2.2 = j)) with
      | some u => some u.2.1
      | none => mapLookup t.reverseInodeMap j := by
    intro j
    unfold updateInodeMappings
    exact foldl_renameStep_rev _ _ j hinos
  have hnext : (updateInodeMappings t o n).nextInode = t.nextInode := by
    unfold updateInodeMappings
    exact foldl_renameStep_nextInode _ _
  refine ⟨?_, ?_, ?_, ?_, ?_⟩
  · unfold updateInodeMappings
    exact foldl_renameStep_fwdKeys _ _ hkeys
  · intro q j
    rw [hF1 q, hF2 j]
    cases hfq : (pathsToUpdate t o n).find? (fun u => decide (u.2.1 = q)) with
    | some u =>
      have humem := List.mem_of_find?_eq_some hfq
      have huq0 := find?_pred_true _ _ _ hfq
      have huq : u.2.1 = q := of_decide_eq_true huq0
      cases hgq : (pathsToUpdate t o n).find? (fun u => decide (u.2.2 = j)) with
      | some v =>
        have hvmem := List.mem_of_find?_eq_some hgq
        have hvj0 := find?_pred_true _ _ _ hgq
        have hvj : v.2.2 = j := of_decide_eq_true hvj0
        constructor
        · intro hx
          have hx2 : some u.2.2 = some j := hx
          injection hx2 with hx3
          have hfindu : (pathsToUpdate t o n).find?
              (fun w => decide (w.2.2 = u.2.2)) = some u :=
            find?_proj_eq_some _ (fun w => w.2.2) hinos u humem
          rw [hx3, hgq] at hfindu
          injection hfindu with huv
          show some v.2.1 = some q
          rw [huv, huq]
        · intro hx
          have hx2 : some v.2.1 = some q := hx
          injection hx2 with hx3
          have hfindv : (pathsToUpdate t o n).find?
              (fun w => decide (w.2.1 = v.2.1)) = some v :=
            find?_proj_eq_some _ (fun w => w.2.1) hnews v hvmem
          rw [hx3, hfq] at hfindv
          injection hfindv with huv
          show some u.2.2 = some j
          rw [huv, hvj]
      | none =>
        constructor
        · intro hx
          have hx2 : some u.2.2 = some j := hx
          injection hx2 with hx3
          exact absurd (decide_eq_true hx3) (List.find?_eq_none.mp hgq u humem)
        · intro hx
          have hx2 : mapLookup t.reverseInodeMap j = some q := hx
          have hfq2 : mapLookup t.inodeMap q = some j := (h.bij q j).mpr hx2
          have hfr := hfresh u humem
          rw [huq, hfq2] at hfr
          cases hfr
    | none =>
      cases hgq : (pathsToUpdate t o n).find? (fun u => decide (u.2.2 = j)) with
      | some v =>
        have hvmem := List.mem_of_find?_eq_some hgq
        have hvj0 := find?_pred_true _ _ _ hgq
        have hvj : v.2.2 = j := of_decide_eq_true hvj0
        constructor
        · intro hx
          have hx2 : (if (pathsToUpdate t o n).any (fun u => decide (u.1 = q))
              then none else mapLookup t.inodeMap q) = some j := hx
          by_cases hA : (pathsToUpdate t o n).any (fun u => decide (u.1 = q)) = true
          · rw [if_pos hA] at hx2
            cases hx2
          · rw [if_neg hA] at hx2
            have hv1 : mapLookup t.inodeMap v.1 = some v.2.2 := hmemf v hvmem
            have hrevj := (h.bij q j).mp hx2
            have hrevj2 := (h.bij v.1 v.2.2).mp hv1
            rw [hvj] at hrevj2
            have hq1 := hrevj.symm.trans hrevj2
            injection hq1 with hq2
            exact absurd
              (List.any_eq_true.mpr ⟨v, hvmem, decide_eq_true hq2.symm⟩) hA
        · intro hx
          have hx2 : some v.2.1 = some q := hx
          injection hx2 with hx3
          exact absurd (decide_eq_true hx3) (List.find?_eq_none.mp hfq v hvmem)
      | none =>
        constructor
        · intro hx
          have hx2 : (if (pathsToUpdate t o n).any (fun u => decide (u.1 = q))
              then none else mapLookup t.inodeMap q) = some j := hx
          by_cases hA : (pathsToUpdate t o n).any (fun u => decide (u.1 = q)) = true
          · rw [if_pos hA] at hx2
            cases hx2
          · rw [if_neg hA] at hx2
            exact (h.bij q j).mp hx2
        · intro hx
          have hx2 : mapLookup t.reverseInodeMap j = some q := hx
          have hfq2 : mapLookup t.inodeMap q = some j := (h.bij q j).mpr hx2
          have hA : ¬ (pathsToUpdate t o n).any
              (fun u => decide (u.1 = q)) = true := by
            rw [List.any_eq_true]
            rintro ⟨v, hv, hv1⟩
            have hv2 : v.1 = q := of_decide_eq_true hv1
            have hv3 : mapLookup t.inodeMap v.1 = some v.2.2 := hmemf v hv
            rw [hv2, hfq2] at hv3
            injection hv3 with hv4
            exact List.find?_eq_none.mp hgq v hv (decide_eq_true hv4.symm)
          show (if (pathsToUpdate t o n).any (fun u => decide (u.1 = q))
              then none else mapLookup t.inodeMap q) = some j
          rw [if_neg hA]
          exact hfq2
  · intro q hq
    have hq2 := (hF1 q).symm.trans hq
    cases hfq : (pathsToUpdate t o n).find? (fun u => decide (u.2.1 = q)) with
    | some u =>
      rw [hfq] at hq2
      have hq3 : some u.2.2 = some 1 := hq2
      injection hq3 with hq4
      have humem := List.mem_of_find?_eq_some hfq
      have hu1 : mapLookup t.inodeMap u.1 = some u.2.2 := hmemf u humem
      rw [hq4] at hu1
      have hu2 := h.root u.1 hu1
      have hsub := hmems u humem
      rw [hu2, hroot] at hsub
      cases hsub
    | none =>
      rw [hfq] at hq2
      have hq3 : (if (pathsToUpdate t o n).any (fun u => decide (u.1 = q))
          then none else mapLookup t.inodeMap q) = some 1 := hq2
      by_cases hA : (pathsToUpdate t o n).any (fun u => decide (u.1 = q)) = true
      · rw [if_pos hA] at hq3
        cases hq3
      · rw [if_neg hA] at hq3
        exact h.root q hq3
  · intro q j hq
    have hq2 := (hF1 q).symm.trans hq
    show j < (updateInodeMappings t o n).nextInode
    rw [hnext]
    cases hfq : (pathsToUpdate t o n).find? (fun u => decide (u.2.1 = q)) with
    | some u =>
      rw [hfq] at hq2
      have hq3 : some u.2.2 = some j := hq2
      injection hq3 with hq4
      have humem := List.mem_of_find?_eq_some hfq
      have hb := h.bound u.1 u.2.2 (hmemf u humem)
      omega
    | none =>
      rw [hfq] at hq2
      have hq3 : (if (pathsToUpdate t o n).any (fun u => decide (u.1 = q))
          then none else mapLookup t.inodeMap q) = some j := hq2
      by_cases hA : (pathsToUpdate t o n).any (fun u => decide (u.1 = q)) = true
      · rw [if_pos hA] at hq3
        cases hq3
      · rw [if_neg hA] at hq3
        exact h.bound q j hq3
  · show 2 ≤ (updateInodeMappings t o n).nextInode
    rw [hnext]
    exact h.two

theorem tableInv_applyOp (t : InodeTable) (op : TableOp) (h : TableInv t)
    (hg : GoodOp t op) : TableInv (applyOp t op) := by
  cases op with
  | getOrCreate p => exact tableInv_getOrCreate t p h
  | remove p => exact tableInv_remove t p h
  | renameSubtree o n => exact tableInv_rename t o n h hg.1 hg.2

theorem tableInv_applyTrace (ops : List TableOp) (t : InodeTable)
    (h : TableInv t) (hg : GoodTrace t ops) : TableInv (applyTrace t ops) := by
  induction ops generalizing t with
  | nil => exact h
  | cons op ops ih =>
    exact ih (applyOp t op) (tableInv_applyOp t op h hg.1) hg.2

/-- C8 (amended): over every trace of table operations from a fresh mount
whose rename steps keep the root fixed and are collision-free, the Inode
Table invariants hold: keys are duplicate-free, the two maps are exact
inverses, only `/` maps to inode 1, and the next counter strictly exceeds
every allocated inode (starting at 2).  Moreover — unconditionally — no
operation ever decreases the next counter, a miss allocates exactly the
current next value and increments the counter, and a hit returns the
existing inode with the table unchanged (so inode numbers are handed out
monotonically from 2 and never reused).  Without the collision proviso a
rename silently overwrites an entry and the maps stop being inverses; see
the counterexample. -/
theorem claim8_table_invariants (ops : List TableOp)
    (hg : GoodTrace initTable ops) :
    TableInv (applyTrace initTable ops) ∧
    (∀ (t : InodeTable) (op : TableOp),
      t.nextInode ≤ (applyOp t op).nextInode) ∧
    (∀ (t : InodeTable) (p : String), mapLookup t.inodeMap p = none →
      (getOrCreateInode t p).1 = t.nextInode ∧
      (getOrCreateInode t p).2.nextInode = t.nextInode + 1) ∧
    (∀ (t : InodeTable) (p : String) (i : Nat),
      mapLookup t.inodeMap p = some i → getOrCreateInode t p = (i, t)) := by
  refine ⟨tableInv_applyTrace ops initTable tableInv_init hg, ?_, ?_, ?_⟩
  · intro t op
    cases op with
    | getOrCreate p =>
      show t.nextInode ≤ (getOrCreateInode t p).2.nextInode
      cases hlk : mapLookup t.inodeMap p with
      | some i =>
        simp only [getOrCreateInode, hlk]
        omega
      | none =>
        simp only [getOrCreateInode, hlk]
        omega
    | remove p =>
      show t.nextInode ≤ (removeInodeFor t p).nextInode
      cases hlk : mapLookup t.inodeMap p with
      | some i =>
        simp only [removeInodeFor, hlk]
        omega
      | none =>
        simp only [removeInodeFor, hlk]
        omega
    | renameSubtree o n =>
      show t.nextInode ≤ (updateInodeMappings t o n).nextInode
      have he : (updateInodeMappings t o n).nextInode = t.nextInode := by
        unfold updateInodeMappings
        exact foldl_renameStep_nextInode _ _
      rw [he]
  · intro t p hlk
    constructor
    · simp [getOrCreateInode, hlk]
    · simp [getOrCreateInode, hlk]
  · intro t p i hlk
    simp [getOrCreateInode, hlk]

/-- C8 counterexample: after allocating `/a` (inode 2) and `/b` (inode 3)
and renaming `/a` onto `/b`, the reverse map still sends 3 to `/b` while
the forward map sends `/b` to 2 — the maps are no longer inverses, so the
unconditional claim fails. -/
theorem claim8_counterexample :
    mapLookup (applyTrace initTable collisionTrace).reverseInodeMap 3 =
      some "/b" ∧
    mapLookup (applyTrace initTable collisionTrace).inodeMap "/b" ≠ some 3 ∧
    mapLookup (applyTrace initTable collisionTrace).inodeMap "/b" = some 2 := by
  decide

/-- C8 witness: the collision-free trace keeps the invariants (and its
final next counter is 3). -/
theorem claim8_witness :
    TableInv (applyTrace initTable goodTrace) ∧
    (applyTrace initTable goodTrace).nextInode = 3 := by
  have hg : GoodTrace initTable goodTrace := by
    refine ⟨trivial, ⟨by decide, ?_⟩, trivial, trivial⟩
    intro p hp hs q hq hre
    have hpk : p = "/a" ∨ p = "/" := by
      have h1 := mem_keys_of_mapLookup_ne_none _ p hp
      rw [show (applyOp initTable (TableOp.getOrCreate "/a")).inodeMap.map (·.1) =
        ["/a", "/"] from rfl] at h1
      simpa using h1
    have hqk : q = "/a" ∨ q = "/" := by
      have h1 := mem_keys_of_mapLookup_ne_none _ q hq
      rw [show (applyOp initTable (TableOp.getOrCreate "/a")).inodeMap.map (·.1) =
        ["/a", "/"] from rfl] at h1
      simpa using h1
    rcases hpk with rfl | rfl <;> rcases hqk with rfl | rfl <;>
      (revert hs hre; decide)
  exact ⟨(claim8_table_invariants goodTrace hg).1, by decide⟩

theorem pushEntries_cons
    (tbl : InodeTable) (seen : List String)
    (es : List (Nat × FileKind × String))
    (item : FileKind × String × String)
    (items : List (FileKind × String × String)) :
    pushEntries (tbl, seen, es) (item :: items) =
      if item.2.1 ∈ seen then pushEntries (tbl, seen, es) items
      else pushEntries ((getOrCreateInode tbl item.2.2).2, item.2.1 :: seen,
        es ++ [((getOrCreateInode tbl item.2.2).1, item.1, item.2.1)]) items := by
  by_cases hmem : item.2.1 ∈ seen
  · rw [if_pos hmem]
    unfold pushEntries
    rw [List.foldl_cons]
    congr 1
    simp [hmem]
  · rw [if_neg hmem]
    unfold pushEntries
    rw [List.foldl_cons]
    congr 1
    simp [hmem]

theorem pushEntries_names (items : List (FileKind × String × String))
    (tbl : InodeTable) (seen : List String)
    (es : List (Nat × FileKind × String)) :
    (pushEntries (tbl, seen, es) items).2.2.map (fun e => e.2.2) =
      es.map (fun e => e.2.2) ++ dedupNames seen items := by
  induction items generalizing tbl seen es with
  | nil => simp [pushEntries, dedupNames]
  | cons item items ih =>
    rw [pushEntries_cons]
    by_cases hmem : item.2.1 ∈ seen
    · rw [if_pos hmem, ih]
      have hd : dedupNames seen (item :: items) = dedupNames seen items := by
        simp [dedupNames, hmem]
      rw [hd]
    · rw [if_neg hmem, ih]
      have hd : dedupNames seen (item :: items) =
          item.2.1 :: dedupNames (item.2.1 :: seen) items := by
        simp [dedupNames, hmem]
      rw [hd]
      simp

theorem mem_dedupNames (items : List (FileKind × String × String))
    (seen : List String) (x : String) :
    x ∈ dedupNames seen items ↔
      (x ∉ seen ∧ ∃ it ∈ items, it.2.1 = x) := by
  induction items generalizing seen with
  | nil => simp [dedupNames]
  | cons item items ih =>
    by_cases hmem : item.2.1 ∈ seen
    · rw [show dedupNames seen (item :: items) = dedupNames seen items from
        by simp [dedupNames, hmem]]
      rw [ih]
      constructor
      · rintro ⟨hx, it, hit, hxe⟩
        exact ⟨hx, it, List.mem_cons_of_mem _ hit, hxe⟩
      · rintro ⟨hx, it, hit, hxe⟩
        rcases List.mem_cons.mp hit with rfl | hit2
        · exact absurd (hxe ▸ hmem) hx
        · exact ⟨hx, it, hit2, hxe⟩
    · rw [show dedupNames seen (item :: items) =
          item.2.1 :: dedupNames (item.2.1 :: seen) items from
        by simp [dedupNames, hmem]]
      rw [List.mem_cons, ih]
      constructor
      · rintro (rfl | ⟨hx, it, hit, hxe⟩)
        · exact ⟨hmem, item, List.mem_cons_self _ _, rfl⟩
        · refine ⟨?_, it, List.mem_cons_of_mem _ hit, hxe⟩
          intro hxs
          exact hx (List.mem_cons_of_mem _ hxs)
      · rintro ⟨hx, it, hit, hxe⟩
        rcases List.mem_cons.mp hit with rfl | hit2
        · exact Or.inl hxe.symm
        · by_cases hxi : x = item.2.1
          · exact Or.inl hxi
          · refine Or.inr ⟨?_, it, hit2, hxe⟩
            intro hc
            rcases List.mem_cons.mp hc with h1 | h2
            · exact hxi h1
            · exact hx h2

theorem dedupNames_nodup (items : List (FileKind × String × String))
    (seen : List String) : (dedupNames seen items).Nodup := by
  induction items generalizing seen with
  | nil => exact List.nodup_nil
  | cons item items ih =>
    by_cases hmem : item.2.1 ∈ seen
    · rw [show dedupNames seen (item :: items) = dedupNames seen items from
        by simp [dedupNames, hmem]]
      exact ih seen
    · rw [show dedupNames seen (item :: items) =
          item.2.1 :: dedupNames (item.2.1 :: seen) items from
        by simp [dedupNames, hmem]]
      rw [List.nodup_cons]
      refine ⟨?_, ih _⟩
      intro hc
      exact ((mem_dedupNames items _ _).mp hc).1 (List.mem_cons_self _ _)

theorem mem_readdirItems_name (st : FsState) (path : String)
    (folderParam : Option String) (x : String) :
    (∃ it ∈ readdirItems st path folderParam, it.2.1 = x) ↔
      (∃ f ∈ listFoldersByParent st.store.folders folderParam, f.title = x) ∨
      (∃ nn ∈ listNotesByParent st.store folderParam st.userId,
        nn.title ++ "." ++ nn.syn = x) := by
  unfold readdirItems
  constructor
  · rintro ⟨it, hit, rfl⟩
    rcases List.mem_append.mp hit with hmf | hmn
    · rw [List.mem_map] at hmf
      obtain ⟨f, hf, rfl⟩ := hmf
      exact Or.inl ⟨f, hf, rfl⟩
    · rw [List.mem_map] at hmn
      obtain ⟨nn, hn, rfl⟩ := hmn
      exact Or.inr ⟨nn, hn, rfl⟩
  · rintro (⟨f, hf, rfl⟩ | ⟨nn, hn, rfl⟩)
    · exact ⟨_, List.mem_append.mpr (Or.inl (List.mem_map.mpr ⟨f, hf, rfl⟩)), rfl⟩
    · exact ⟨_, List.mem_append.mpr (Or.inr (List.mem_map.mpr ⟨nn, hn, rfl⟩)), rfl⟩

theorem emitEntries_fsts (entries : List (Nat × FileKind × String))
    (offset : Nat) :
    (emitEntries entries offset).map (fun e => e.1) = entries.drop offset := by
  unfold emitEntries
  rw [List.map_map]
  have h1 : ((fun (e : (Nat × FileKind × String) × Nat) => e.1) ∘
      (fun (e : Nat × (Nat × FileKind × String)) => (e.2, e.1 + 1))) =
      (fun (e : Nat × (Nat × FileKind × String)) => e.2) := rfl
  rw [h1, List.map_drop]
  have h2 : entries.enum.map
      (fun (e : Nat × (Nat × FileKind × String)) => e.2) = entries :=
    List.enum_map_snd entries
  rw [h2]

/-- C9 (confirmed): for every folder (including the root, and provided no
child basename is the literal `.` or `..`, which the kernel never sends as
a created name), a single `readdir` reply emits `emitEntries` of the entry
list, whose basenames are exactly `.`, `..`, every child folder's title
and every child note's `{title}.{syntax}`; each basename appears at most
once (first occurrence wins), and the offset cookie skips exactly the
first `offset` entries. -/
theorem claim9_readdir_contents (st : FsState) (ino offset : Nat)
    (path : String) (folderParam : Option String)
    (hpath : mapLookup st.table.reverseInodeMap ino = some path)
    (hfp : (if path = "/" then some none
      else (getFolderIdByPath st.store.folders
        (normalizePathForDb path)).map some) = some folderParam)
    (hdot : ∀ it ∈ readdirItems st path folderParam,
      it.2.1 ≠ "." ∧ it.2.1 ≠ "..") :
    (readdir st ino offset).2 =
      Except.ok (emitEntries (readdirEntries st ino path folderParam).2 offset) ∧
    (∀ x : String,
      x ∈ (readdirEntries st ino path folderParam).2.map (fun e => e.2.2) ↔
        (x = "." ∨ x = ".." ∨
         (∃ f ∈ listFoldersByParent st.store.folders folderParam, f.title = x) ∨
         (∃ nn ∈ listNotesByParent st.store folderParam st.userId,
           nn.title ++ "." ++ nn.syn = x))) ∧
    ((readdirEntries st ino path folderParam).2.map (fun e => e.2.2)).Nodup ∧
    (emitEntries (readdirEntries st ino path folderParam).2 offset).map
      (fun e => e.1) =
      (readdirEntries st ino path folderParam).2.drop offset := by
  have hE : (readdirEntries st ino path folderParam).2.map (fun e => e.2.2) =
      "." :: ".." :: dedupNames [] (readdirItems st path folderParam) := by
    show (pushEntries (st.table, [],
      [(ino, FileKind.directory, "."),
       (readdirParentIno st.table path, FileKind.directory, "..")])
      (readdirItems st path folderParam)).2.2.map (fun e => e.2.2) =
      "." :: ".." :: dedupNames [] (readdirItems st path folderParam)
    rw [pushEntries_names]
    rfl
  refine ⟨?_, ?_, ?_, emitEntries_fsts _ _⟩
  · by_cases hroot : path = "/"
    · subst hroot
      rw [if_pos rfl] at hfp
      injection hfp with hfp2
      rw [← hfp2]
      simp only [readdir, hpath, if_true]
    · cases hg : getFolderIdByPath st.store.folders (normalizePathForDb path) with
      | none =>
        rw [if_neg hroot, hg] at hfp
        simp at hfp
      | some fid =>
        rw [if_neg hroot, hg] at hfp
        simp only [Option.map_some'] at hfp
        injection hfp with hfp2
        rw [← hfp2]
        simp only [readdir, hpath]
        rw [if_neg hroot]
        simp only [hg]
  · intro x
    rw [hE, List.mem_cons, List.mem_cons, mem_dedupNames,
        mem_readdirItems_name]
    simp
  · rw [hE, List.nodup_cons, List.nodup_cons]
    refine ⟨?_, ?_, dedupNames_nodup _ _⟩
    · intro hc
      rcases List.mem_cons.mp hc with h1 | h2
      · exact absurd h1 (by decide)
      · obtain ⟨-, it, hit, hieq⟩ := (mem_dedupNames _ _ _).mp h2
        exact (hdot it hit).1 hieq
    · intro hc
      obtain ⟨-, it, hit, hieq⟩ := (mem_dedupNames _ _ _).mp hc
      exact (hdot it hit).2 hieq

/-- C9 witness: on a root with folder `d` and note `t.md`, the reply is
`emitEntries` of the computed entries and the basenames are
duplicate-free; concretely the emitted names are
`., .., d, t.md` with cookies 1-4. -/
theorem claim9_witness :
    ((readdir readdirExample 1 0).2 =
      Except.ok (emitEntries (readdirEntries readdirExample 1 "/" none).2 0) ∧
     ((readdirExample.store.folders = [⟨"f1", "d", none⟩]) ∧
      ((readdirEntries readdirExample 1 "/" none).2.map
        (fun e => e.2.2)).Nodup)) ∧
    (emitEntries (readdirEntries readdirExample 1 "/" none).2 0).map
      (fun e => (e.1.2.2, e.2)) =
      [(".", 1), ("..", 2), ("d", 3), ("t.md", 4)] := by
  have h := claim9_readdir_contents readdirExample 1 0 "/" none
    (by decide) (by decide) (by decide)
  exact ⟨⟨h.1, by decide, h.2.2.1⟩, by decide⟩

end SqliteFuse
